import Mathlib

/-!
Verification development for the WERD repository's i18n incremental
synchronization engine (`src/scripts/i18n_autotranslate.py`).

The script maintains per-locale JSON documents derived from authoritative
source documents (`en.json`, `zh.json`).  We embed the JSON data model and
every function of the script that the claims touch, faithfully following the
Python source:

* JSON values are modelled by the mutual inductives `JVal` / `JFields`:
  a value is a string, a JSON object (an insertion-ordered association
  structure, as Python dicts are), or some other JSON value carried opaquely
  as its serialized text (`JVal.other`).  Python dict operations (first-key
  lookup, in-place update keeping position, `pop`) are `fget`, `fset`, `fpop`.
* `sha` (SHA-256 hexdigest in the source) is modelled as an abstract
  parameter `hash : String → String`; every claim depends only on equality
  and determinism of fingerprints, never on the digest's internals, and the
  theorems below are proved for every such function.
* The OpenAI call is modelled by an oracle `svc : Nat → Option (List (String
  × String))` giving, per attempt index, either the key/value pairs of the
  service's JSON response (after `str()` coercion of keys and values) or a
  transient failure (`none`, covering network errors and malformed JSON).
* Python `str.strip` / `str.isdigit` / `str.replace` / `str.startswith` are
  modelled on `List Char` (`pyStripChars`, `strAllDigits`, `pyReplace`,
  list prefix); `int(...)` on a digit string is `digitsVal`.
* `json.dumps(..., sort_keys=True)` equality of the `_meta` record is
  modelled by structural equality of `JVal`; for the records actually
  compared by the script (a record and its in-place `upsert_meta_hashes`
  update, which keeps every existing key in position and appends new ones)
  content equality and structural equality coincide.
-/

mutual

inductive JVal where
  | str (s : String)
  | other (raw : String)
  | obj (m : JFields)
deriving DecidableEq, Repr

inductive JFields where
  | nil
  | cons (k : String) (v : JVal) (rest : JFields)
deriving DecidableEq, Repr

end

/-- Python dict lookup `d.get(k)`: first (unique) entry with key `k`. -/
def fget : JFields → String → Option JVal
  | .nil, _ => none
  | .cons k0 v0 rest, k => if k0 = k then some v0 else fget rest k

/-- Python dict assignment `d[k] = v`: replaces the entry in place keeping
its position, or appends a new entry at the end. -/
def fset : JFields → String → JVal → JFields
  | .nil, k, v => .cons k v .nil
  | .cons k0 v0 rest, k, v => if k0 = k then .cons k v rest else .cons k0 v0 (fset rest k v)

/-- Python `d.pop(k, None)`: removes the entry with key `k`. -/
def fpop : JFields → String → JFields
  | .nil, _ => .nil
  | .cons k0 v0 rest, k => if k0 = k then fpop rest k else .cons k0 v0 (fpop rest k)

/-- Python `list(d.keys())`. -/
def fkeys : JFields → List String
  | .nil => []
  | .cons k _ rest => k :: fkeys rest

/-- Lookup in a plain string-valued dict (`Dict[str, str]`), first entry. -/
def sget {α : Type} : List (String × α) → String → Option α
  | [], _ => none
  | p :: rest, k => if p.1 = k then some p.2 else sget rest k

/-- Assignment in a plain string-valued dict, in place or appended. -/
def sset {α : Type} : List (String × α) → String → α → List (String × α)
  | [], k, v => [(k, v)]
  | p :: rest, k, v => if p.1 = k then (k, v) :: rest else p :: sset rest k v

/-- `pop` in a plain string-valued dict. -/
def spop {α : Type} : List (String × α) → String → List (String × α)
  | [], _ => []
  | p :: rest, k => if p.1 = k then spop rest k else p :: spop rest k

/-- A `Dict[str, str]` seen as a JSON object value. -/
def strFields : List (String × String) → JFields
  | [] => .nil
  | (k, v) :: rest => .cons k (.str v) (strFields rest)

/-- The string-valued entries of a JSON object, in order. -/
def strEntries : JFields → List (String × String)
  | .nil => []
  | .cons k v rest =>
    match v with
    | .str s => (k, s) :: strEntries rest
    | _ => strEntries rest

section PyStrings

/-- Whitespace as stripped by Python `str.strip()` (ASCII part: space, tab,
LF, VT, FF, CR). -/
def pyIsSpaceChar (c : Char) : Bool :=
  c.toNat = 32 || c.toNat = 9 || c.toNat = 10 || c.toNat = 11 || c.toNat = 12 || c.toNat = 13

/-- Python `s.strip()` on the character list. -/
def pyStripChars (l : List Char) : List Char :=
  ((l.dropWhile pyIsSpaceChar).reverse.dropWhile pyIsSpaceChar).reverse

/-- Python `s.strip()`. -/
def pyStrip (s : String) : String :=
  ⟨pyStripChars s.data⟩

/-- Python `s.isdigit()` (ASCII digits; nonempty). -/
def strAllDigits (l : List Char) : Bool :=
  !l.isEmpty && l.all Char.isDigit

/-- Python `int(...)` applied to a string of digits. -/
def digitsVal (l : List Char) : Nat :=
  l.foldl (fun n c => 10 * n + (c.toNat - 48)) 0

/-- Core of Python `s.replace(old, new)` for a nonempty pattern: replace
non-overlapping occurrences left to right.  The fuel argument (instantiated
with the length of the scanned list, which bounds the number of steps since
every step consumes at least one character) makes the recursion structural. -/
def replaceFuel (p r : List Char) : Nat → List Char → List Char
  | _, [] => []
  | 0, s => s
  | fuel + 1, c :: rest =>
    if p.isPrefixOf (c :: rest) then r ++ replaceFuel p r fuel (List.drop p.length (c :: rest))
    else c :: replaceFuel p r fuel rest

/-- Python `s.replace(old, new)`.  An empty pattern inserts `new` before
every character and at the end, exactly as Python does. -/
def pyReplace (s old new : String) : String :=
  match old.data with
  | [] => ⟨new.data ++ s.data.foldr (fun c acc => c :: (new.data ++ acc)) []⟩
  | a :: p => ⟨replaceFuel (a :: p) new.data s.data.length s.data⟩

end PyStrings

/-! Embedding of `src/scripts/i18n_autotranslate.py`. -/

/-- The glossary table (source lines 31–37). -/
def GLOSSARY : List (String × String) :=
  [("WealthX", "WealthX"), ("Flow", "Flow"), ("Flows", "Flows"),
   ("iCloud", "iCloud"), ("SF Symbols", "SF Symbols")]

/-- The manual force-copy allow-list (source lines 47–50). -/
def FORCE_COPY_KEYS_FROM_EN : List String := ["privacy_date"]

/-- Source lines 52–53: `k.startswith("lang_")`. -/
def is_lang_label_key (k : String) : Bool :=
  "lang_".data.isPrefixOf k.data

/-- Source lines 67–83: recognize a stripped `YYYY-MM-DD` value.  The value
is first stripped, then must have exactly 10 characters with dashes at
indices 4 and 7, digit groups, and month in 1..12, day in 1..31. -/
def is_iso_date_value : JVal → Bool
  | .str v =>
    let s := pyStripChars v.data
    decide (s.length = 10 ∧ s[4]? = some '-' ∧ s[7]? = some '-' ∧
      strAllDigits (s.take 4) = true ∧ strAllDigits ((s.drop 5).take 2) = true ∧
      strAllDigits ((s.drop 8).take 2) = true ∧
      1 ≤ digitsVal ((s.drop 5).take 2) ∧ digitsVal ((s.drop 5).take 2) ≤ 12 ∧
      1 ≤ digitsVal ((s.drop 8).take 2) ∧ digitsVal ((s.drop 8).take 2) ≤ 31)
  | _ => false

/-- Source lines 55–65: label keys, the allow-list, and auto-detected ISO
date values are force-copied. -/
def is_force_copy_item (k : String) (v : JVal) : Bool :=
  is_lang_label_key k || decide (k ∈ FORCE_COPY_KEYS_FROM_EN) || is_iso_date_value v

/-- Source lines 103–106: sequentially replace every glossary source form by
its mapped form. -/
def apply_glossary (text : String) : String :=
  GLOSSARY.foldl (fun t p => pyReplace t p.1 p.2) text

/-- Source lines 108–117, core half: the translatable (string-valued)
entries of a document, skipping the `_meta` key. -/
def coreOf : JFields → List (String × String)
  | .nil => []
  | .cons k v rest =>
    if k = "_meta" then coreOf rest
    else
      match v with
      | .str s => (k, s) :: coreOf rest
      | _ => coreOf rest

/-- Source lines 108–117, metadata half: `d.get("_meta", {})` if it is a
dict, else `{}`. -/
def metaOf (d : JFields) : JFields :=
  match fget d "_meta" with
  | some (.obj m) => m
  | _ => .nil

/-- Source lines 108–117: `split_meta`. -/
def split_meta (d : JFields) : List (String × String) × JFields :=
  (coreOf d, metaOf d)

/-- Source lines 119–127: the string-valued entries of
`dst_meta.get("source_hashes")` if it is a dict, else `{}`. -/
def get_source_hashes (dst_meta : JFields) : List (String × String) :=
  match fget dst_meta "source_hashes" with
  | some (.obj m) => strEntries m
  | _ => []

/-- The fingerprint table of a destination document:
`get_source_hashes` of its metadata record. -/
def doc_hashes (d : JFields) : List (String × String) :=
  get_source_hashes (metaOf d)

/-- One entry of a JSON object compared against a flat string dict: the
value is the string `h` holds at the entry's key. -/
def strEntryMatches (h : List (String × String)) (v : JVal) (k : String) : Bool :=
  match v with
  | .str s => decide (sget h k = some s)
  | _ => false

/-- Python `==` between a JSON value and a flat `Dict[str, str]`, used for
`meta.get("source_hashes") != hashes` (source line 152): equal iff the value
is a dict whose every entry is a string matching `h`, with the same key set. -/
def eqStrDictF : JFields → List (String × String) → Bool
  | .nil, _ => true
  | .cons k v rest, h => strEntryMatches h v k && eqStrDictF rest h

/-- Python `==` between `meta.get("source_hashes")` and the pruned hash
dict (order-insensitive dict equality, one string-valued level deep). -/
def eqStrDict (jv : JVal) (h : List (String × String)) : Bool :=
  match jv with
  | .obj m => eqStrDictF m h && h.all (fun q => (fget m q.1).isSome)
  | _ => false

/-- Source lines 142–149: the deletion loop of `sync_deletions`.  It walks
the snapshot `ks = list(dst_full.keys())`, and for every key other than
`_meta` that is absent from the source it pops the key from the document and
from the hash dict, recording that a change happened. -/
def del_go (src : List (String × String)) :
    List String → JFields → List (String × String) → JFields × List (String × String) × Bool
  | [], d, h => (d, h, false)
  | k :: ks, d, h =>
    if k = "_meta" then del_go src ks d h
    else if (sget src k).isSome then del_go src ks d h
    else
      let r := del_go src ks (fpop d k) (spop h k)
      (r.1, r.2.1, true)

/-- Source lines 129–157: `sync_deletions`.  Removes destination keys absent
from the source, prunes their hashes, and writes the pruned hash dict back
into `_meta.source_hashes` when it differs (Python `!=` on dicts). -/
def sync_deletions (src : List (String × String)) (dstFull : JFields) : JFields × Bool :=
  let hashes0 :=
    match fget dstFull "_meta" with
    | some (.obj m) => get_source_hashes m
    | _ => []
  let r := del_go src (fkeys dstFull) dstFull hashes0
  match fget dstFull "_meta" with
  | some (.obj m) =>
    if (match fget m "source_hashes" with
        | some jv => eqStrDict jv r.2.1
        | none => false) then
      (r.1, r.2.2)
    else
      (fset r.1 "_meta" (.obj (fset m "source_hashes" (.obj (strFields r.2.1)))), true)
  | _ => (r.1, r.2.2)

/-- The per-destination-value translate test of `build_plan` (source line
187): `not isinstance(cur, str) or cur.strip() == ""`. -/
def isBlankOrNonStr : JVal → Bool
  | .str s => decide (pyStrip s = "")
  | _ => true

/-- Source lines 178–196: the loop of `build_plan` over the source items.
A key absent from the destination, or with a blank/non-string destination
value, or with a recorded hash different from the current source hash, is
queued for translation; a key with no recorded hash but a kept destination
value is queued for hash seeding only. -/
def build_plan_go (hash : String → String) (dst : JFields) (dst_hashes : List (String × String)) :
    List (String × String) → List (String × String) × List String
  | [] => ([], [])
  | (k, v) :: rest =>
    let r := build_plan_go hash dst dst_hashes rest
    match fget dst k with
    | none => ((k, v) :: r.1, r.2)
    | some cur =>
      if isBlankOrNonStr cur then ((k, v) :: r.1, r.2)
      else
        match sget dst_hashes k with
        | none => (r.1, k :: r.2)
        | some old => if old ≠ hash v then ((k, v) :: r.1, r.2) else r

/-- Source lines 159–198: `build_plan`, returning
`(needs_translate, needs_hash_seed)`. -/
def build_plan (hash : String → String) (src : List (String × String)) (dst : JFields)
    (dst_meta : JFields) : List (String × String) × List String :=
  build_plan_go hash dst (get_source_hashes dst_meta) src

/-- Source lines 200–241: one attempt of `_call_openai_translate`, driven by
the service oracle: on a successful attempt the glossary post-filter is
applied to every returned value. -/
def call_openai_translate (svc : Nat → Option (List (String × String))) (attempt : Nat) :
    Option (List (String × String)) :=
  match svc attempt with
  | some data => some (data.map (fun p => (p.1, apply_glossary p.2)))
  | none => none

/-- Source lines 255–262: the retry loop `for i in range(max_retries)`,
returning the first successful attempt. -/
def try_attempts (svc : Nat → Option (List (String × String))) :
    Nat → Nat → Option (List (String × String))
  | _, 0 => none
  | i, fuel + 1 =>
    match call_openai_translate svc i with
    | some r => some r
    | none => try_attempts svc (i + 1) fuel

/-- Source lines 243–264: `translate_batch`.  Empty input short-circuits to
an empty result with no service call; otherwise up to `max_retries = 3`
attempts are made, and exhausting them raises (`Except.error`). -/
def translate_batch (svc : Nat → Option (List (String × String))) (dst_lang : String)
    (items : List (String × String)) : Except String (List (String × String)) :=
  if items.isEmpty then .ok []
  else
    match try_attempts svc 0 3 with
    | some r => .ok r
    | none => .error ("translate failed for " ++ dst_lang)

/-- The negation of the test `dst_full.get(k) != v` (source line 300): the
destination already holds exactly the string `v` at `k`. -/
def force_entry_matches (d : JFields) (k v : String) : Bool :=
  match fget d k with
  | some (.str w) => decide (w = v)
  | _ => false

/-- Source lines 288–303: `apply_force_copy`.  Every force-copy entry of the
authoritative core is written over the destination when it differs. -/
def apply_force_copy : List (String × String) → JFields → JFields × Bool
  | [], d => (d, false)
  | (k, v) :: rest, d =>
    if is_force_copy_item k (.str v) then
      if force_entry_matches d k v then
        apply_force_copy rest d
      else
        ((apply_force_copy rest (fset d k (.str v))).1, true)
    else apply_force_copy rest d

/-- Source lines 278–279: the hash-writing loop of `upsert_meta_hashes`. -/
def upsert_sh_go (hash : String → String) : JFields → List (String × String) → JFields
  | sh, [] => sh
  | sh, (k, t) :: rest => upsert_sh_go hash (fset sh k (.str (hash t))) rest

/-- Source lines 266–286: `upsert_meta_hashes`.  Writes `hash` of every
update's source text into `_meta.source_hashes` and refreshes the
provenance fields, including the `updated_at_utc` timestamp (`now`). -/
def upsert_meta_hashes (hash : String → String) (now src_lang dst_lang : String)
    (dstFull : JFields) (updates : List (String × String)) : JFields :=
  let meta := match fget dstFull "_meta" with | some (.obj m) => m | _ => .nil
  let meta :=
    match fget meta "source_hashes" with
    | some (.obj _) => meta
    | some _ => fset meta "source_hashes" (.obj .nil)
    | none => fset meta "source_hashes" (.obj .nil)
  let sh := match fget meta "source_hashes" with | some (.obj m) => m | _ => .nil
  let meta := fset meta "source_hashes" (.obj (upsert_sh_go hash sh updates))
  let meta := fset meta "generated_by" (.str "i18n_autotranslate.py")
  let meta := fset meta "source_lang" (.str src_lang)
  let meta := fset meta "target_lang" (.str dst_lang)
  let meta := fset meta "updated_at_utc" (.str now)
  fset dstFull "_meta" (.obj meta)

/-- Source line 336/337: drop the entries classified force-copy against the
authoritative value `authCore.get(k, v)`. -/
def filter_force (authCore : List (String × String)) (l : List (String × String)) :
    List (String × String) :=
  l.filter (fun p =>
    !(is_force_copy_item p.1 (.str (match sget authCore p.1 with | some w => w | none => p.2))))

/-- Source lines 333–339: after deletions, re-split the destination and
build the plan over the non-force-copied subsets. -/
def pass_plan (hash : String → String) (authCore srcCore : List (String × String))
    (dstD : JFields) : List (String × String) × List String :=
  build_plan hash (filter_force authCore srcCore) (strFields (filter_force authCore (coreOf dstD)))
    (metaOf dstD)

/-- The document state of a pass after force-copy (step 0) and deletion sync
(step 1), before planning (source lines 327–333). -/
def pass_pre (authCore : List (String × String)) (srcFull dst0 : JFields) : JFields :=
  (sync_deletions (coreOf srcFull) (apply_force_copy authCore dst0).1).1

/-- The plan `(needs_translate, needs_hash_seed)` a pass computes for the
given inputs (source line 339). -/
def pass_needs (hash : String → String) (authCore : List (String × String))
    (srcFull dst0 : JFields) : List (String × String) × List String :=
  pass_plan hash authCore (coreOf srcFull) (pass_pre authCore srcFull dst0)

/-- Source lines 345–346: merge the translated values into the document. -/
def merge_translated : List (String × String) → JFields → JFields
  | [], d => d
  | (k, v) :: rest, d => merge_translated rest (fset d k (.str v))

/-- Source lines 352–353: seed updates for the hash-seed keys, from the
filtered source (`src_for_translate[k]`; every such key is a key of it). -/
def seed_from_keys (src_ft : List (String × String)) :
    List String → List (String × String) → List (String × String)
  | [], acc => acc
  | k :: ks, acc =>
    match sget src_ft k with
    | some v => seed_from_keys src_ft ks (sset acc k v)
    | none => seed_from_keys src_ft ks acc

/-- Source lines 355–356: seed updates for the translated keys. -/
def seed_from_pairs : List (String × String) → List (String × String) → List (String × String)
  | [], acc => acc
  | (k, v) :: rest, acc => seed_from_pairs rest (sset acc k v)

/-- Source lines 359–361: every force-copy entry of the authoritative core
is (re)seeded, overriding any previous seed entry. -/
def seed_force : List (String × String) → List (String × String) → List (String × String)
  | [], acc => acc
  | (k, v) :: rest, acc =>
    if is_force_copy_item k (.str v) then seed_force rest (sset acc k v)
    else seed_force rest acc

/-- The full `seed_updates` dict of a pass (source lines 350–361). -/
def pass_seed_updates (hash : String → String) (authCore : List (String × String))
    (srcFull dst0 : JFields) : List (String × String) :=
  seed_force authCore
    (seed_from_pairs (pass_needs hash authCore srcFull dst0).1
      (seed_from_keys (filter_force authCore (coreOf srcFull))
        (pass_needs hash authCore srcFull dst0).2 []))

/-- Source lines 305–380: `process_target_file`.  Returns the final
in-memory document together with the write decision, or `Except.error` when
the translation batch failed after exhausting its retries (in the script the
exception propagates before any `save_json`, so a failed pass writes
nothing).  `meta_changed` compares the serialized metadata before and after
`upsert_meta_hashes` (source lines 363–368). -/
def process_target_file (hash : String → String) (svc : Nat → Option (List (String × String)))
    (now src_lang dst_lang : String) (srcFull : JFields) (authCore : List (String × String))
    (dstFull0 : JFields) : Except String (JFields × Bool) :=
  let f := apply_force_copy authCore dstFull0
  let sd := sync_deletions (coreOf srcFull) f.1
  let plan := pass_needs hash authCore srcFull dstFull0
  match translate_batch svc dst_lang plan.1 with
  | .error e => .error e
  | .ok translated =>
    let dstT := merge_translated translated sd.1
    let translated_any := !plan.1.isEmpty
    let seed_updates := pass_seed_updates hash authCore srcFull dstFull0
    if seed_updates.isEmpty then
      .ok (dstT, f.2 || sd.2 || translated_any)
    else
      let metaBefore := match fget dstT "_meta" with | some m => m | none => .obj .nil
      let dstM := upsert_meta_hashes hash now src_lang dst_lang dstT seed_updates
      let metaAfter := match fget dstM "_meta" with | some m => m | none => .obj .nil
      let meta_changed := decide (¬ metaBefore = metaAfter)
      .ok (dstM, f.2 || sd.2 || translated_any || meta_changed)

/-- The on-disk destination document after a pass: the script calls
`save_json` exactly when the write decision is true, and a raised batch
failure reaches no `save_json`. -/
def pass_disk (hash : String → String) (svc : Nat → Option (List (String × String)))
    (now src_lang dst_lang : String) (srcFull : JFields) (authCore : List (String × String))
    (dstOnDisk : JFields) : JFields :=
  match process_target_file hash svc now src_lang dst_lang srcFull authCore dstOnDisk with
  | .error _ => dstOnDisk
  | .ok r => if r.2 then r.1 else dstOnDisk

/-- One destination of the orchestrator: its track's source language and
document, its target language, and its service oracle. -/
structure Target where
  src_lang : String
  dst_lang : String
  srcFull : JFields
  svc : Nat → Option (List (String × String))

/-- Source lines 394–425: `main` calls `process_target_file` once per
destination, sequentially (the zh track first, then every discovered
target), with no exception handling: the first raised batch failure
propagates and stops the run, leaving the current and all remaining
destination documents in their prior on-disk state. -/
def run_targets (hash : String → String) (now : String) (authCore : List (String × String)) :
    List (Target × JFields) → List JFields × Option String
  | [] => ([], none)
  | (t, d) :: rest =>
    match process_target_file hash t.svc now t.src_lang t.dst_lang t.srcFull authCore d with
    | .error e => (d :: rest.map (fun p => p.2), some e)
    | .ok r =>
      let d1 := if r.2 then r.1 else d
      let rr := run_targets hash now authCore rest
      (d1 :: rr.1, rr.2)

/-! Basic lemmas about the dictionary operations. -/

/-- Induction principle for `JFields` alone (the mutual recursor needs a
motive for `JVal` too, which none of the lemmas below uses). -/
theorem jfields_induction (motive : JFields → Prop) (hnil : motive .nil)
    (hcons : ∀ k v rest, motive rest → motive (.cons k v rest)) : ∀ m, motive m
  | .nil => hnil
  | .cons k v rest => hcons k v rest (jfields_induction motive hnil hcons rest)

theorem fget_fset_self (d : JFields) (k : String) (v : JVal) : fget (fset d k v) k = some v := by
  induction d using jfields_induction with
  | hnil => simp [fset, fget]
  | hcons k0 v0 rest ih =>
    by_cases h : k0 = k
    · subst h; simp [fset, fget]
    · simp [fset, fget, h, ih]

theorem fget_fset_ne (d : JFields) (k q : String) (v : JVal) (h : k ≠ q) :
    fget (fset d k v) q = fget d q := by
  induction d using jfields_induction with
  | hnil => simp [fset, fget, h]
  | hcons k0 v0 rest ih =>
    by_cases h0 : k0 = k
    · subst h0; simp [fset, fget, h, Ne.symm h]
    · by_cases h1 : k0 = q <;> simp [fset, fget, h0, h1, ih, Ne.symm h]

theorem fget_fpop_self (d : JFields) (k : String) : fget (fpop d k) k = none := by
  induction d using jfields_induction with
  | hnil => simp [fpop, fget]
  | hcons k0 v0 rest ih =>
    by_cases h : k0 = k
    · subst h; simp [fpop, ih]
    · simp [fpop, fget, h, ih]

theorem fget_fpop_ne (d : JFields) (k q : String) (h : k ≠ q) :
    fget (fpop d k) q = fget d q := by
  induction d using jfields_induction with
  | hnil => simp [fpop]
  | hcons k0 v0 rest ih =>
    by_cases h0 : k0 = k
    · subst h0; simp [fpop, fget, h, ih, Ne.symm h]
    · by_cases h1 : k0 = q <;> simp [fpop, fget, h0, h1, ih, Ne.symm h]

theorem fget_fset_isSome (d : JFields) (k q : String) (v : JVal)
    (h : (fget d q).isSome) : (fget (fset d k v) q).isSome := by
  by_cases hq : k = q
  · subst hq; simp [fget_fset_self]
  · rwa [fget_fset_ne d k q v hq]

theorem fget_isSome_iff_mem_fkeys (d : JFields) (k : String) :
    (fget d k).isSome ↔ k ∈ fkeys d := by
  induction d using jfields_induction with
  | hnil => simp [fget, fkeys]
  | hcons k0 v0 rest ih =>
    by_cases h : k0 = k
    · subst h; simp [fget, fkeys]
    · simp [fget, fkeys, h, ih, Ne.symm h]

theorem sget_sset_self {α : Type} (l : List (String × α)) (k : String) (v : α) :
    sget (sset l k v) k = some v := by
  induction l with
  | nil => simp [sset, sget]
  | cons p rest ih =>
    by_cases h : p.1 = k
    · simp [sset, sget, h]
    · simp [sset, sget, h, ih]

theorem sget_sset_ne {α : Type} (l : List (String × α)) (k q : String) (v : α) (h : k ≠ q) :
    sget (sset l k v) q = sget l q := by
  induction l with
  | nil => simp [sset, sget, h, Ne.symm h]
  | cons p rest ih =>
    by_cases h0 : p.1 = k
    · simp [sset, sget, h0, h, Ne.symm h]
    · by_cases h1 : p.1 = q <;> simp [sset, sget, h0, h1, ih, Ne.symm h]

theorem sget_spop_self {α : Type} (l : List (String × α)) (k : String) :
    sget (spop l k) k = none := by
  induction l with
  | nil => simp [spop, sget]
  | cons p rest ih =>
    by_cases h : p.1 = k
    · simp [spop, h, ih]
    · simp [spop, sget, h, ih]

theorem sget_spop_ne {α : Type} (l : List (String × α)) (k q : String) (h : k ≠ q) :
    sget (spop l k) q = sget l q := by
  induction l with
  | nil => simp [spop]
  | cons p rest ih =>
    by_cases h0 : p.1 = k
    · simp [spop, sget, h0, h, ih, Ne.symm h]
    · by_cases h1 : p.1 = q <;> simp [spop, sget, h0, h1, ih, Ne.symm h]

theorem sget_none_iff {α : Type} (l : List (String × α)) (k : String) :
    sget l k = none ↔ k ∉ l.map Prod.fst := by
  induction l with
  | nil => simp [sget]
  | cons p rest ih =>
    by_cases h : p.1 = k
    · simp [sget, h]
    · simp [sget, h, ih, Ne.symm h]

theorem sget_map_snd {α β : Type} (g : α → β) (l : List (String × α)) (k : String) :
    sget (l.map (fun p => (p.1, g p.2))) k = (sget l k).map g := by
  induction l with
  | nil => simp [sget]
  | cons p rest ih =>
    by_cases h : p.1 = k <;> simp [sget, h, ih]

/-! Glossary lemmas: replacing a pattern by itself changes nothing. -/

theorem replaceFuel_self (p : List Char) : ∀ (fuel : Nat) (s : List Char),
    replaceFuel p p fuel s = s := by
  intro fuel
  induction fuel with
  | zero => intro s; cases s <;> rfl
  | succ n ih =>
    intro s
    cases s with
    | nil => rfl
    | cons c rest =>
      show (if p.isPrefixOf (c :: rest) then
              p ++ replaceFuel p p n (List.drop p.length (c :: rest))
            else c :: replaceFuel p p n rest) = c :: rest
      by_cases hpre : p.isPrefixOf (c :: rest)
      · rw [if_pos hpre]
        obtain ⟨t, ht⟩ := List.isPrefixOf_iff_prefix.mp hpre
        rw [← ht, List.drop_left, ih]
      · simp [hpre, ih]

theorem pyReplace_self (s k : String) : pyReplace s k k = s := by
  obtain ⟨data⟩ := s
  obtain ⟨kd⟩ := k
  cases kd with
  | nil =>
    show (⟨[] ++ data.foldr (fun c acc => c :: ([] ++ acc)) []⟩ : String) = ⟨data⟩
    have hfold : data.foldr (fun c acc => c :: ([] ++ acc)) [] = data := by
      induction data with
      | nil => rfl
      | cons c rest ih => simp [List.foldr, ih]
    simp [hfold]
  | cons a p =>
    show (⟨replaceFuel (a :: p) (a :: p) data.length data⟩ : String) = ⟨data⟩
    rw [replaceFuel_self]

theorem apply_glossary_id (s : String) : apply_glossary s = s := by
  simp [apply_glossary, GLOSSARY, pyReplace_self]

/-- C10 (implicit): with the glossary table shipped in the program, every
glossary entry maps a term to itself, so the glossary post-filter is the
identity function and the post-filter never alters any translated value. -/
theorem C10_glossary_is_identity :
    GLOSSARY.map Prod.fst = GLOSSARY.map Prod.snd ∧
    ∀ s : String, apply_glossary s = s :=
  ⟨rfl, apply_glossary_id⟩

/-! Date-shape lemmas for the force-copy classifier. -/

/-- The calendar-date shape the way the spec phrases it: the ten characters
are `YYYY-MM-DD` with digits in the year, month and day positions, dashes at
(1-based) positions 5 and 8, month in [1,12] and day in [1,31], and no
further calendar validation. -/
def specDateShape (l : List Char) : Prop :=
  ∃ y1 y2 y3 y4 m1 m2 d1 d2 : Char,
    l = [y1, y2, y3, y4, '-', m1, m2, '-', d1, d2] ∧
    (y1.isDigit = true ∧ y2.isDigit = true ∧ y3.isDigit = true ∧ y4.isDigit = true) ∧
    (m1.isDigit = true ∧ m2.isDigit = true) ∧
    (d1.isDigit = true ∧ d2.isDigit = true) ∧
    1 ≤ 10 * (m1.toNat - 48) + (m2.toNat - 48) ∧
    10 * (m1.toNat - 48) + (m2.toNat - 48) ≤ 12 ∧
    1 ≤ 10 * (d1.toNat - 48) + (d2.toNat - 48) ∧
    10 * (d1.toNat - 48) + (d2.toNat - 48) ≤ 31

theorem exists_ten_of_length (l : List Char) (hlen : l.length = 10) :
    ∃ a b c d e f g p q r, l = [a, b, c, d, e, f, g, p, q, r] := by
  rcases l with _ | ⟨a, l⟩; · simp at hlen
  rcases l with _ | ⟨b, l⟩; · simp at hlen
  rcases l with _ | ⟨c, l⟩; · simp at hlen
  rcases l with _ | ⟨d, l⟩; · simp at hlen
  rcases l with _ | ⟨e, l⟩; · simp at hlen
  rcases l with _ | ⟨f, l⟩; · simp at hlen
  rcases l with _ | ⟨g, l⟩; · simp at hlen
  rcases l with _ | ⟨p, l⟩; · simp at hlen
  rcases l with _ | ⟨q, l⟩; · simp at hlen
  rcases l with _ | ⟨r, l⟩; · simp at hlen
  have hnil : l = [] := by
    have h0 : l.length = 0 := by simp only [List.length_cons] at hlen; omega
    exact List.length_eq_zero.mp h0
  subst hnil
  exact ⟨a, b, c, d, e, f, g, p, q, r, rfl⟩

theorem digitsVal_pair (x y : Char) :
    digitsVal [x, y] = 10 * (x.toNat - 48) + (y.toNat - 48) := by
  simp [digitsVal, List.foldl]

theorem strAllDigits_iff (l : List Char) :
    strAllDigits l = true ↔ l ≠ [] ∧ ∀ c ∈ l, c.isDigit = true := by
  simp [strAllDigits, List.isEmpty_iff]

theorem iso_checks_iff (l : List Char) :
    (l.length = 10 ∧ l[4]? = some '-' ∧ l[7]? = some '-' ∧
      strAllDigits (l.take 4) = true ∧ strAllDigits ((l.drop 5).take 2) = true ∧
      strAllDigits ((l.drop 8).take 2) = true ∧
      1 ≤ digitsVal ((l.drop 5).take 2) ∧ digitsVal ((l.drop 5).take 2) ≤ 12 ∧
      1 ≤ digitsVal ((l.drop 8).take 2) ∧ digitsVal ((l.drop 8).take 2) ≤ 31) ↔
    specDateShape l := by
  constructor
  · rintro ⟨hlen, h4, h7, hy, hm, hd, hm1, hm2, hd1, hd2⟩
    obtain ⟨a, b, c, d, e, f, g, p, q, r, rfl⟩ := exists_ten_of_length l hlen
    have he : e = '-' := by
      have : ([a, b, c, d, e, f, g, p, q, r] : List Char)[4]? = some e := rfl
      rw [this] at h4; exact Option.some.inj h4
    have hp : p = '-' := by
      have : ([a, b, c, d, e, f, g, p, q, r] : List Char)[7]? = some p := rfl
      rw [this] at h7; exact Option.some.inj h7
    subst he; subst hp
    have hty : ([a, b, c, d, '-', f, g, '-', q, r] : List Char).take 4 = [a, b, c, d] := rfl
    have htm : (([a, b, c, d, '-', f, g, '-', q, r] : List Char).drop 5).take 2 = [f, g] := rfl
    have htd : (([a, b, c, d, '-', f, g, '-', q, r] : List Char).drop 8).take 2 = [q, r] := rfl
    rw [hty] at hy; rw [htm] at hm hm1 hm2; rw [htd] at hd hd1 hd2
    rw [digitsVal_pair] at hm1 hm2 hd1 hd2
    rw [strAllDigits_iff] at hy hm hd
    refine ⟨a, b, c, d, f, g, q, r, rfl, ?_, ?_, ?_, hm1, hm2, hd1, hd2⟩
    · exact ⟨hy.2 a (by simp), hy.2 b (by simp), hy.2 c (by simp), hy.2 d (by simp)⟩
    · exact ⟨hm.2 f (by simp), hm.2 g (by simp)⟩
    · exact ⟨hd.2 q (by simp), hd.2 r (by simp)⟩
  · rintro ⟨y1, y2, y3, y4, m1, m2, d1, d2, rfl, ⟨hy1, hy2, hy3, hy4⟩, ⟨hm1, hm2⟩, ⟨hd1, hd2⟩,
      hb1, hb2, hb3, hb4⟩
    refine ⟨rfl, rfl, rfl, ?_, ?_, ?_, ?_, ?_, ?_, ?_⟩
    · rw [show ([y1, y2, y3, y4, '-', m1, m2, '-', d1, d2] : List Char).take 4 = [y1, y2, y3, y4] from rfl]
      rw [strAllDigits_iff]
      refine ⟨by simp, ?_⟩
      intro x hx
      simp only [List.mem_cons, List.not_mem_nil, or_false] at hx
      rcases hx with rfl | rfl | rfl | rfl <;> assumption
    · rw [show (([y1, y2, y3, y4, '-', m1, m2, '-', d1, d2] : List Char).drop 5).take 2 = [m1, m2] from rfl]
      rw [strAllDigits_iff]
      refine ⟨by simp, ?_⟩
      intro x hx
      simp only [List.mem_cons, List.not_mem_nil, or_false] at hx
      rcases hx with rfl | rfl <;> assumption
    · rw [show (([y1, y2, y3, y4, '-', m1, m2, '-', d1, d2] : List Char).drop 8).take 2 = [d1, d2] from rfl]
      rw [strAllDigits_iff]
      refine ⟨by simp, ?_⟩
      intro x hx
      simp only [List.mem_cons, List.not_mem_nil, or_false] at hx
      rcases hx with rfl | rfl <;> assumption
    · rw [show (([y1, y2, y3, y4, '-', m1, m2, '-', d1, d2] : List Char).drop 5).take 2 = [m1, m2] from rfl, digitsVal_pair]; exact hb1
    · rw [show (([y1, y2, y3, y4, '-', m1, m2, '-', d1, d2] : List Char).drop 5).take 2 = [m1, m2] from rfl, digitsVal_pair]; exact hb2
    · rw [show (([y1, y2, y3, y4, '-', m1, m2, '-', d1, d2] : List Char).drop 8).take 2 = [d1, d2] from rfl, digitsVal_pair]; exact hb3
    · rw [show (([y1, y2, y3, y4, '-', m1, m2, '-', d1, d2] : List Char).drop 8).take 2 = [d1, d2] from rfl, digitsVal_pair]; exact hb4

/-- C7 (amended): the force-copy classifier's date auto-detection accepts a
value iff it is a string whose whitespace-stripped form is exactly ten
characters of shape `YYYY-MM-DD` (digits in the year, month and day
positions, dashes at positions 5 and 8) with month in [1,12] and day in
[1,31], and no further calendar validation.  (The claim as frozen omits the
stripping: the source strips the value before every check.) -/
theorem C7_amended_date_detection (v : JVal) :
    is_iso_date_value v = true ↔
      ∃ s : String, v = JVal.str s ∧ specDateShape (pyStripChars s.data) := by
  cases v with
  | str s =>
    rw [show is_iso_date_value (JVal.str s) =
      decide ((pyStripChars s.data).length = 10 ∧ (pyStripChars s.data)[4]? = some '-' ∧
        (pyStripChars s.data)[7]? = some '-' ∧
        strAllDigits ((pyStripChars s.data).take 4) = true ∧
        strAllDigits (((pyStripChars s.data).drop 5).take 2) = true ∧
        strAllDigits (((pyStripChars s.data).drop 8).take 2) = true ∧
        1 ≤ digitsVal (((pyStripChars s.data).drop 5).take 2) ∧
        digitsVal (((pyStripChars s.data).drop 5).take 2) ≤ 12 ∧
        1 ≤ digitsVal (((pyStripChars s.data).drop 8).take 2) ∧
        digitsVal (((pyStripChars s.data).drop 8).take 2) ≤ 31) from rfl]
    rw [decide_eq_true_eq, iso_checks_iff]
    constructor
    · intro h; exact ⟨s, rfl, h⟩
    · rintro ⟨t, ht, h⟩; cases ht; exact h
  | other raw => simp [is_iso_date_value]
  | obj m => simp [is_iso_date_value]

/-- C7 counterexample: the detector accepts the eleven-character string
value `" 2024-03-01"`, whose stripped form matches, so acceptance is not
limited to values that are themselves exactly ten characters as the claim
states. -/
theorem C7_counterexample_strip :
    is_iso_date_value (JVal.str " 2024-03-01") = true ∧
    (" 2024-03-01" : String).length = 11 := by
  exact ⟨by decide, by decide⟩

/-! Staleness-planner lemmas. -/

/-- One step of `build_plan` queues the head key for translation, for
seeding, or for nothing. -/
theorem build_plan_go_cons (hash : String → String) (dst : JFields)
    (dh : List (String × String)) (k : String) (v : String) (rest : List (String × String)) :
    build_plan_go hash dst dh ((k, v) :: rest) =
      ((k, v) :: (build_plan_go hash dst dh rest).1, (build_plan_go hash dst dh rest).2) ∨
    build_plan_go hash dst dh ((k, v) :: rest) =
      ((build_plan_go hash dst dh rest).1, k :: (build_plan_go hash dst dh rest).2) ∨
    build_plan_go hash dst dh ((k, v) :: rest) = build_plan_go hash dst dh rest := by
  cases hget : fget dst k with
  | none => left; simp [build_plan_go, hget]
  | some cur =>
    by_cases hb : isBlankOrNonStr cur
    · left; simp [build_plan_go, hget, hb]
    · cases hold : sget dh k with
      | none => right; left; simp [build_plan_go, hget, hb, hold]
      | some old =>
        by_cases hne : old = hash v
        · right; right; simp [build_plan_go, hget, hb, hold, hne]
        · left; simp [build_plan_go, hget, hb, hold, hne]

/-- Keys absent from the source appear in neither output of the planner. -/
theorem build_plan_go_not_mem (hash : String → String) (dst : JFields)
    (dh : List (String × String)) (k : String) :
    ∀ src : List (String × String), k ∉ src.map Prod.fst →
      sget (build_plan_go hash dst dh src).1 k = none ∧
      k ∉ (build_plan_go hash dst dh src).2 := by
  intro src
  induction src with
  | nil => intro _; exact ⟨rfl, by simp [build_plan_go]⟩
  | cons p rest ih =>
    intro hmem
    obtain ⟨k0, v0⟩ := p
    have hk0 : k0 ≠ k := by
      intro h; exact hmem (by simp [h])
    have hrest : k ∉ rest.map Prod.fst := by
      intro h; exact hmem (by simp [h])
    obtain ⟨h1, h2⟩ := ih hrest
    rcases build_plan_go_cons hash dst dh k0 v0 rest with h | h | h <;> rw [h]
    · exact ⟨by simp [sget, hk0, h1], h2⟩
    · exact ⟨h1, by simp [hk0, h2, Ne.symm hk0]⟩
    · exact ⟨h1, h2⟩

/-- The per-key characterization of the planner's two outputs, for a key of
the (duplicate-free) source. -/
theorem build_plan_go_spec (hash : String → String) (dst : JFields)
    (dh : List (String × String)) (k : String) (v : String) :
    ∀ src : List (String × String), (src.map Prod.fst).Nodup → sget src k = some v →
      ((sget (build_plan_go hash dst dh src).1 k).isSome ↔
        fget dst k = none ∨
        (∃ cur, fget dst k = some cur ∧ isBlankOrNonStr cur = true) ∨
        (∃ old, sget dh k = some old ∧ old ≠ hash v)) ∧
      ((sget dh k = none ∧ (∃ cur, fget dst k = some cur ∧ isBlankOrNonStr cur = false)) →
        k ∈ (build_plan_go hash dst dh src).2 ∧
        sget (build_plan_go hash dst dh src).1 k = none) := by
  intro src
  induction src with
  | nil => intro _ hk; simp [sget] at hk
  | cons p rest ih =>
    intro hnd hk
    obtain ⟨k0, v0⟩ := p
    have hnd0 : k0 ∉ rest.map Prod.fst ∧ (rest.map Prod.fst).Nodup := by
      simpa [List.nodup_cons] using hnd
    by_cases hkk : k0 = k
    · subst hkk
      have hv : v0 = v := by simpa [sget] using hk
      subst hv
      obtain ⟨hn1, hn2⟩ := build_plan_go_not_mem hash dst dh k0 rest hnd0.1
      cases hget : fget dst k0 with
      | none =>
        constructor
        · constructor
          · intro _; exact Or.inl rfl
          · intro _; simp [build_plan_go, hget, sget]
        · rintro ⟨-, cur, hcur, -⟩; cases hcur
      | some cur =>
        by_cases hb : isBlankOrNonStr cur
        · constructor
          · constructor
            · intro _; exact Or.inr (Or.inl ⟨cur, rfl, hb⟩)
            · intro _; simp [build_plan_go, hget, hb, sget]
          · rintro ⟨-, cur2, hcur2, hb2⟩
            obtain rfl := Option.some.inj hcur2
            rw [hb] at hb2; cases hb2
        · cases hold : sget dh k0 with
          | none =>
            have hshape : build_plan_go hash dst dh ((k0, v0) :: rest) =
                ((build_plan_go hash dst dh rest).1,
                 k0 :: (build_plan_go hash dst dh rest).2) := by
              simp [build_plan_go, hget, hb, hold]
            constructor
            · rw [hshape]
              constructor
              · intro hs; rw [hn1] at hs; simp at hs
              · rintro (h | ⟨cur2, hcur2, hb2⟩ | ⟨old, hold2, -⟩)
                · cases h
                · obtain rfl := Option.some.inj hcur2
                  simp [hb2] at hb
                · cases hold2
            · intro _
              rw [hshape]
              exact ⟨by simp, hn1⟩
          | some old =>
            by_cases hne : old = hash v0
            · have hshape : build_plan_go hash dst dh ((k0, v0) :: rest) =
                  build_plan_go hash dst dh rest := by
                simp [build_plan_go, hget, hb, hold, hne]
              constructor
              · rw [hshape]
                constructor
                · intro hs; rw [hn1] at hs; simp at hs
                · rintro (h | ⟨cur2, hcur2, hb2⟩ | ⟨old2, hold2, hne2⟩)
                  · cases h
                  · obtain rfl := Option.some.inj hcur2
                    simp [hb2] at hb
                  · obtain rfl := Option.some.inj hold2
                    exact (hne2 hne).elim
              · rintro ⟨hnone, -⟩; cases hnone
            · have hshape : build_plan_go hash dst dh ((k0, v0) :: rest) =
                  ((k0, v0) :: (build_plan_go hash dst dh rest).1,
                   (build_plan_go hash dst dh rest).2) := by
                simp [build_plan_go, hget, hb, hold, hne]
              constructor
              · rw [hshape]
                constructor
                · intro _; exact Or.inr (Or.inr ⟨old, rfl, hne⟩)
                · intro _; simp [sget]
              · rintro ⟨hnone, -⟩; cases hnone
    · have hk2 : sget rest k = some v := by simpa [sget, hkk] using hk
      obtain ⟨ih1, ih2⟩ := ih hnd0.2 hk2
      rcases build_plan_go_cons hash dst dh k0 v0 rest with h | h | h <;> rw [h]
      · constructor
        · rw [show sget ((k0, v0) :: (build_plan_go hash dst dh rest).1) k =
              sget (build_plan_go hash dst dh rest).1 k from by simp [sget, hkk]]
          exact ih1
        · intro hyp
          obtain ⟨a, b⟩ := ih2 hyp
          exact ⟨a, by simp [sget, hkk, b]⟩
      · constructor
        · exact ih1
        · intro hyp
          obtain ⟨a, b⟩ := ih2 hyp
          exact ⟨by simp [a], b⟩
      · exact ⟨ih1, ih2⟩

/-- C2: for every source/destination pair and every key `k` of the source,
the planner queues `k` for (re)translation iff `k` is absent from the
destination, or its destination value is blank/non-string, or its recorded
fingerprint exists and differs from the fingerprint of the current source
value; and when `k` has no recorded fingerprint but a kept (non-blank
string) destination value, `k` goes to the hash-seed list and not to the
translate set. -/
theorem C2_plan_queues_iff (hash : String → String) (src : List (String × String))
    (dst : JFields) (dst_meta : JFields) (k : String) (v : String)
    (hnd : (src.map Prod.fst).Nodup) (hk : sget src k = some v) :
    ((sget (build_plan hash src dst dst_meta).1 k).isSome ↔
      fget dst k = none ∨
      (∃ cur, fget dst k = some cur ∧ isBlankOrNonStr cur = true) ∨
      (∃ old, sget (get_source_hashes dst_meta) k = some old ∧ old ≠ hash v)) ∧
    ((sget (get_source_hashes dst_meta) k = none ∧
        (∃ cur, fget dst k = some cur ∧ isBlankOrNonStr cur = false)) →
      k ∈ (build_plan hash src dst dst_meta).2 ∧
      sget (build_plan hash src dst dst_meta).1 k = none) := by
  unfold build_plan
  exact build_plan_go_spec hash dst (get_source_hashes dst_meta) k v src hnd hk

/-- Disjointness and source-agreement of the planner's outputs, at the level
of `build_plan_go`. -/
theorem build_plan_go_wf (hash : String → String) (dst : JFields)
    (dh : List (String × String)) :
    ∀ src : List (String × String), (src.map Prod.fst).Nodup →
      (∀ k, ¬((sget (build_plan_go hash dst dh src).1 k).isSome ∧
              k ∈ (build_plan_go hash dst dh src).2)) ∧
      (∀ k w, sget (build_plan_go hash dst dh src).1 k = some w → sget src k = some w) := by
  intro src
  induction src with
  | nil =>
    intro _
    constructor
    · intro k h; simp [build_plan_go, sget] at h
    · intro k w h; simp [build_plan_go, sget] at h
  | cons p rest ih =>
    intro hnd
    obtain ⟨k0, v0⟩ := p
    have hnd0 : k0 ∉ rest.map Prod.fst ∧ (rest.map Prod.fst).Nodup := by
      simpa [List.nodup_cons] using hnd
    obtain ⟨hn1, hn2⟩ := build_plan_go_not_mem hash dst dh k0 rest hnd0.1
    obtain ⟨ih1, ih2⟩ := ih hnd0.2
    rcases build_plan_go_cons hash dst dh k0 v0 rest with h | h | h <;> rw [h]
    · constructor
      · intro k ⟨hs, hm⟩
        by_cases hkk : k0 = k
        · subst hkk; exact hn2 hm
        · rw [show sget ((k0, v0) :: (build_plan_go hash dst dh rest).1) k =
              sget (build_plan_go hash dst dh rest).1 k from by simp [sget, hkk]] at hs
          exact ih1 k ⟨hs, hm⟩
      · intro k w hs
        by_cases hkk : k0 = k
        · subst hkk
          rw [show sget ((k0, v0) :: (build_plan_go hash dst dh rest).1) k0 =
              some v0 from by simp [sget]] at hs
          obtain rfl := Option.some.inj hs
          simp [sget]
        · rw [show sget ((k0, v0) :: (build_plan_go hash dst dh rest).1) k =
              sget (build_plan_go hash dst dh rest).1 k from by simp [sget, hkk]] at hs
          rw [show sget ((k0, v0) :: rest) k = sget rest k from by simp [sget, hkk]]
          exact ih2 k w hs
    · constructor
      · intro k ⟨hs, hm⟩
        rcases List.mem_cons.mp hm with rfl | hm2
        · rw [hn1] at hs; simp at hs
        · exact ih1 k ⟨hs, hm2⟩
      · intro k w hs
        by_cases hkk : k0 = k
        · subst hkk; rw [hn1] at hs; cases hs
        · rw [show sget ((k0, v0) :: rest) k = sget rest k from by simp [sget, hkk]]
          exact ih2 k w hs
    · constructor
      · exact ih1
      · intro k w hs
        by_cases hkk : k0 = k
        · subst hkk; rw [hn1] at hs; cases hs
        · rw [show sget ((k0, v0) :: rest) k = sget rest k from by simp [sget, hkk]]
          exact ih2 k w hs

/-- C9 (implicit): the planner's two outputs have disjoint key sets, every
key of either output is a key of the source mapping, and the translate set
maps each of its keys to exactly the current source value for that key. -/
theorem C9_plan_wellformed (hash : String → String) (src : List (String × String))
    (dst : JFields) (dst_meta : JFields) (hnd : (src.map Prod.fst).Nodup) :
    (∀ k, ¬((sget (build_plan hash src dst dst_meta).1 k).isSome ∧
            k ∈ (build_plan hash src dst dst_meta).2)) ∧
    (∀ k, (sget (build_plan hash src dst dst_meta).1 k).isSome → k ∈ src.map Prod.fst) ∧
    (∀ k, k ∈ (build_plan hash src dst dst_meta).2 → k ∈ src.map Prod.fst) ∧
    (∀ k w, sget (build_plan hash src dst dst_meta).1 k = some w → sget src k = some w) := by
  unfold build_plan
  refine ⟨(build_plan_go_wf hash dst (get_source_hashes dst_meta) src hnd).1, ?_, ?_,
    (build_plan_go_wf hash dst (get_source_hashes dst_meta) src hnd).2⟩
  · intro k hs
    by_contra hmem
    rw [(build_plan_go_not_mem hash dst (get_source_hashes dst_meta) k src hmem).1] at hs
    simp at hs
  · intro k hm
    by_contra hmem
    exact (build_plan_go_not_mem hash dst (get_source_hashes dst_meta) k src hmem).2 hm

/-! Force-copy lemmas. -/

theorem force_entry_matches_iff (d : JFields) (k v : String) :
    force_entry_matches d k v = true ↔ fget d k = some (.str v) := by
  unfold force_entry_matches
  cases h : fget d k with
  | none => simp
  | some jv => cases jv <;> simp

theorem afc_step_skip (k v : String) (rest : List (String × String)) (d : JFields)
    (hfc : is_force_copy_item k (.str v) = false) :
    apply_force_copy ((k, v) :: rest) d = apply_force_copy rest d := by
  simp [apply_force_copy, hfc]

theorem afc_step_match (k v : String) (rest : List (String × String)) (d : JFields)
    (hfc : is_force_copy_item k (.str v) = true) (heq : force_entry_matches d k v = true) :
    apply_force_copy ((k, v) :: rest) d = apply_force_copy rest d := by
  simp [apply_force_copy, hfc, heq]

theorem afc_step_set (k v : String) (rest : List (String × String)) (d : JFields)
    (hfc : is_force_copy_item k (.str v) = true) (heq : force_entry_matches d k v = false) :
    apply_force_copy ((k, v) :: rest) d =
      ((apply_force_copy rest (fset d k (.str v))).1, true) := by
  simp [apply_force_copy, hfc, heq]

/-- Keys outside the authoritative core are untouched by the force-copy
step. -/
theorem afc_preserve (q : String) :
    ∀ (a : List (String × String)) (d : JFields), sget a q = none →
      fget (apply_force_copy a d).1 q = fget d q := by
  intro a
  induction a with
  | nil => intro d _; rfl
  | cons p rest ih =>
    intro d hq
    obtain ⟨k, v⟩ := p
    have hkq : k ≠ q := by intro h; subst h; simp [sget] at hq
    have hq2 : sget rest q = none := by simpa [sget, hkq] using hq
    by_cases hfc : is_force_copy_item k (.str v)
    · cases heq : force_entry_matches d k v with
      | true => rw [afc_step_match k v rest d hfc heq]; exact ih d hq2
      | false =>
        rw [afc_step_set k v rest d hfc heq]
        rw [show ((apply_force_copy rest (fset d k (.str v))).1, true).1 =
            (apply_force_copy rest (fset d k (.str v))).1 from rfl]
        rw [ih _ hq2, fget_fset_ne d k q _ hkq]
    · rw [afc_step_skip k v rest d (by simpa using hfc)]
      exact ih d hq2

/-- After the force-copy step, a force-copied key of the (duplicate-free)
authoritative core holds exactly the authoritative string. -/
theorem afc_sets (k v : String) :
    ∀ (a : List (String × String)) (d : JFields), (a.map Prod.fst).Nodup →
      sget a k = some v → is_force_copy_item k (.str v) = true →
      fget (apply_force_copy a d).1 k = some (.str v) := by
  intro a
  induction a with
  | nil => intro d _ hk _; simp [sget] at hk
  | cons p rest ih =>
    intro d hnd hk hfc
    obtain ⟨k0, v0⟩ := p
    have hnd0 : k0 ∉ rest.map Prod.fst ∧ (rest.map Prod.fst).Nodup := by
      simpa [List.nodup_cons] using hnd
    by_cases hkk : k0 = k
    · subst hkk
      have hv : v0 = v := by simpa [sget] using hk
      subst hv
      have hrest : sget rest k0 = none := (sget_none_iff rest k0).mpr hnd0.1
      cases heq : force_entry_matches d k0 v0 with
      | true =>
        rw [afc_step_match k0 v0 rest d hfc heq, afc_preserve k0 rest d hrest]
        exact (force_entry_matches_iff d k0 v0).mp heq
      | false =>
        rw [afc_step_set k0 v0 rest d hfc heq]
        rw [show ((apply_force_copy rest (fset d k0 (.str v0))).1, true).1 =
            (apply_force_copy rest (fset d k0 (.str v0))).1 from rfl]
        rw [afc_preserve k0 rest _ hrest]
        exact fget_fset_self d k0 _
    · have hk2 : sget rest k = some v := by simpa [sget, hkk] using hk
      by_cases hfc0 : is_force_copy_item k0 (.str v0)
      · cases heq : force_entry_matches d k0 v0 with
        | true => rw [afc_step_match k0 v0 rest d hfc0 heq]; exact ih d hnd0.2 hk2 hfc
        | false =>
          rw [afc_step_set k0 v0 rest d hfc0 heq]
          exact ih _ hnd0.2 hk2 hfc
      · rw [afc_step_skip k0 v0 rest d (by simpa using hfc0)]
        exact ih d hnd0.2 hk2 hfc

/-- When the force-copy step reports no change, the document is unchanged. -/
theorem afc_false_doc :
    ∀ (a : List (String × String)) (d : JFields),
      (apply_force_copy a d).2 = false → (apply_force_copy a d).1 = d := by
  intro a
  induction a with
  | nil => intro d _; rfl
  | cons p rest ih =>
    intro d hfl
    obtain ⟨k, v⟩ := p
    by_cases hfc : is_force_copy_item k (.str v)
    · cases heq : force_entry_matches d k v with
      | true =>
        rw [afc_step_match k v rest d hfc heq] at hfl ⊢
        exact ih d hfl
      | false => rw [afc_step_set k v rest d hfc heq] at hfl; cases hfl
    · rw [afc_step_skip k v rest d (by simpa using hfc)] at hfl ⊢
      exact ih d hfl

/-- When the force-copy step reports no change, every force-copy entry of
the core was already held verbatim by the document. -/
theorem afc_false_val (k v : String) :
    ∀ (a : List (String × String)) (d : JFields),
      (apply_force_copy a d).2 = false → sget a k = some v →
      is_force_copy_item k (.str v) = true → fget d k = some (.str v) := by
  intro a
  induction a with
  | nil => intro d _ hk _; simp [sget] at hk
  | cons p rest ih =>
    intro d hfl hk hfc
    obtain ⟨k0, v0⟩ := p
    by_cases hkk : k0 = k
    · subst hkk
      have hv : v0 = v := by simpa [sget] using hk
      subst hv
      cases heq : force_entry_matches d k0 v0 with
      | true => exact (force_entry_matches_iff d k0 v0).mp heq
      | false => rw [afc_step_set k0 v0 rest d hfc heq] at hfl; cases hfl
    · have hk2 : sget rest k = some v := by simpa [sget, hkk] using hk
      by_cases hfc0 : is_force_copy_item k0 (.str v0)
      · cases heq : force_entry_matches d k0 v0 with
        | true =>
          rw [afc_step_match k0 v0 rest d hfc0 heq] at hfl
          exact ih d hfl hk2 hfc
        | false => rw [afc_step_set k0 v0 rest d hfc0 heq] at hfl; cases hfl
      · rw [afc_step_skip k0 v0 rest d (by simpa using hfc0)] at hfl
        exact ih d hfl hk2 hfc

/-- The force-copy step never removes a key. -/
theorem afc_keeps_some (q : String) :
    ∀ (a : List (String × String)) (d : JFields), (fget d q).isSome →
      (fget (apply_force_copy a d).1 q).isSome := by
  intro a
  induction a with
  | nil => intro d h; exact h
  | cons p rest ih =>
    intro d h
    obtain ⟨k, v⟩ := p
    by_cases hfc : is_force_copy_item k (.str v)
    · cases heq : force_entry_matches d k v with
      | true => rw [afc_step_match k v rest d hfc heq]; exact ih d h
      | false =>
        rw [afc_step_set k v rest d hfc heq]
        exact ih _ (fget_fset_isSome d k q _ h)
    · rw [afc_step_skip k v rest d (by simpa using hfc)]
      exact ih d h

/-! Deletion-synchronizer lemmas. -/

theorem del_step_meta (src : List (String × String)) (ks : List String) (d : JFields)
    (h : List (String × String)) :
    del_go src ("_meta" :: ks) d h = del_go src ks d h := by
  simp [del_go]

theorem del_step_keep (src : List (String × String)) (k0 : String) (ks : List String)
    (d : JFields) (h : List (String × String)) (hm : k0 ≠ "_meta")
    (hs : (sget src k0).isSome) :
    del_go src (k0 :: ks) d h = del_go src ks d h := by
  simp [del_go, hm, hs]

theorem del_step_pop (src : List (String × String)) (k0 : String) (ks : List String)
    (d : JFields) (h : List (String × String)) (hm : k0 ≠ "_meta")
    (hs : sget src k0 = none) :
    del_go src (k0 :: ks) d h =
      ((del_go src ks (fpop d k0) (spop h k0)).1,
       (del_go src ks (fpop d k0) (spop h k0)).2.1, true) := by
  simp [del_go, hm, hs]

/-- Keys still present in the source survive the deletion loop untouched. -/
theorem del_go_pres (src : List (String × String)) (k : String)
    (hk : (sget src k).isSome) :
    ∀ (ks : List String) (d : JFields) (h : List (String × String)),
      fget (del_go src ks d h).1 k = fget d k := by
  intro ks
  induction ks with
  | nil => intro d h; rfl
  | cons k0 rest ih =>
    intro d h
    by_cases hm : k0 = "_meta"
    · subst hm; rw [del_step_meta]; exact ih d h
    · cases hs : sget src k0 with
      | some w =>
        rw [del_step_keep src k0 rest d h hm (by simp [hs])]
        exact ih d h
      | none =>
        have hk0 : k0 ≠ k := by
          intro he; subst he; rw [hs] at hk; cases hk
        rw [del_step_pop src k0 rest d h hm hs]
        rw [show ((del_go src rest (fpop d k0) (spop h k0)).1,
            (del_go src rest (fpop d k0) (spop h k0)).2.1, true).1 =
            (del_go src rest (fpop d k0) (spop h k0)).1 from rfl]
        rw [ih (fpop d k0) (spop h k0), fget_fpop_ne d k0 k hk0]

/-- The `_meta` entry survives the deletion loop untouched. -/
theorem del_go_meta (src : List (String × String)) :
    ∀ (ks : List String) (d : JFields) (h : List (String × String)),
      fget (del_go src ks d h).1 "_meta" = fget d "_meta" := by
  intro ks
  induction ks with
  | nil => intro d h; rfl
  | cons k0 rest ih =>
    intro d h
    by_cases hm : k0 = "_meta"
    · subst hm; rw [del_step_meta]; exact ih d h
    · cases hs : sget src k0 with
      | some w =>
        rw [del_step_keep src k0 rest d h hm (by simp [hs])]
        exact ih d h
      | none =>
        rw [del_step_pop src k0 rest d h hm hs]
        rw [show ((del_go src rest (fpop d k0) (spop h k0)).1,
            (del_go src rest (fpop d k0) (spop h k0)).2.1, true).1 =
            (del_go src rest (fpop d k0) (spop h k0)).1 from rfl]
        rw [ih (fpop d k0) (spop h k0), fget_fpop_ne d k0 "_meta" hm]

/-- The deletion loop never introduces a key into the document. -/
theorem del_go_doc_none (src : List (String × String)) (k : String) :
    ∀ (ks : List String) (d : JFields) (h : List (String × String)),
      fget d k = none → fget (del_go src ks d h).1 k = none := by
  intro ks
  induction ks with
  | nil => intro d h hd; exact hd
  | cons k0 rest ih =>
    intro d h hd
    by_cases hm : k0 = "_meta"
    · subst hm; rw [del_step_meta]; exact ih d h hd
    · cases hs : sget src k0 with
      | some w =>
        rw [del_step_keep src k0 rest d h hm (by simp [hs])]
        exact ih d h hd
      | none =>
        rw [del_step_pop src k0 rest d h hm hs]
        rw [show ((del_go src rest (fpop d k0) (spop h k0)).1,
            (del_go src rest (fpop d k0) (spop h k0)).2.1, true).1 =
            (del_go src rest (fpop d k0) (spop h k0)).1 from rfl]
        refine ih (fpop d k0) (spop h k0) ?_
        by_cases hk0 : k0 = k
        · subst hk0; exact fget_fpop_self d k0
        · rw [fget_fpop_ne d k0 k hk0]; exact hd

/-- A key of the scanned snapshot that is absent from the source is removed
from the document by the deletion loop. -/
theorem del_go_doc_removes (src : List (String × String)) (k : String)
    (hmk : k ≠ "_meta") (hsk : sget src k = none) :
    ∀ (ks : List String) (d : JFields) (h : List (String × String)), k ∈ ks →
      fget (del_go src ks d h).1 k = none := by
  intro ks
  induction ks with
  | nil => intro d h hin; cases hin
  | cons k0 rest ih =>
    intro d h hin
    by_cases hk0 : k0 = k
    · subst hk0
      rw [del_step_pop src k0 rest d h hmk hsk]
      rw [show ((del_go src rest (fpop d k0) (spop h k0)).1,
          (del_go src rest (fpop d k0) (spop h k0)).2.1, true).1 =
          (del_go src rest (fpop d k0) (spop h k0)).1 from rfl]
      exact del_go_doc_none src k0 rest (fpop d k0) (spop h k0) (fget_fpop_self d k0)
    · have hin2 : k ∈ rest := by
        rcases List.mem_cons.mp hin with h1 | h1
        · exact absurd h1.symm hk0
        · exact h1
      by_cases hm : k0 = "_meta"
      · subst hm; rw [del_step_meta]; exact ih d h hin2
      · cases hs : sget src k0 with
        | some w =>
          rw [del_step_keep src k0 rest d h hm (by simp [hs])]
          exact ih d h hin2
        | none =>
          rw [del_step_pop src k0 rest d h hm hs]
          rw [show ((del_go src rest (fpop d k0) (spop h k0)).1,
              (del_go src rest (fpop d k0) (spop h k0)).2.1, true).1 =
              (del_go src rest (fpop d k0) (spop h k0)).1 from rfl]
          exact ih (fpop d k0) (spop h k0) hin2

/-- The deletion loop never introduces a key into the hash dict. -/
theorem del_go_h_none (src : List (String × String)) (k : String) :
    ∀ (ks : List String) (d : JFields) (h : List (String × String)),
      sget h k = none → sget (del_go src ks d h).2.1 k = none := by
  intro ks
  induction ks with
  | nil => intro d h hh; exact hh
  | cons k0 rest ih =>
    intro d h hh
    by_cases hm : k0 = "_meta"
    · subst hm; rw [del_step_meta]; exact ih d h hh
    · cases hs : sget src k0 with
      | some w =>
        rw [del_step_keep src k0 rest d h hm (by simp [hs])]
        exact ih d h hh
      | none =>
        rw [del_step_pop src k0 rest d h hm hs]
        rw [show ((del_go src rest (fpop d k0) (spop h k0)).1,
            (del_go src rest (fpop d k0) (spop h k0)).2.1, true).2.1 =
            (del_go src rest (fpop d k0) (spop h k0)).2.1 from rfl]
        refine ih (fpop d k0) (spop h k0) ?_
        by_cases hk0 : k0 = k
        · subst hk0; exact sget_spop_self h k0
        · rw [sget_spop_ne h k0 k hk0]; exact hh

/-- A key of the scanned snapshot that is absent from the source is pruned
from the hash dict by the deletion loop. -/
theorem del_go_h_removes (src : List (String × String)) (k : String)
    (hmk : k ≠ "_meta") (hsk : sget src k = none) :
    ∀ (ks : List String) (d : JFields) (h : List (String × String)), k ∈ ks →
      sget (del_go src ks d h).2.1 k = none := by
  intro ks
  induction ks with
  | nil => intro d h hin; cases hin
  | cons k0 rest ih =>
    intro d h hin
    by_cases hk0 : k0 = k
    · subst hk0
      rw [del_step_pop src k0 rest d h hmk hsk]
      rw [show ((del_go src rest (fpop d k0) (spop h k0)).1,
          (del_go src rest (fpop d k0) (spop h k0)).2.1, true).2.1 =
          (del_go src rest (fpop d k0) (spop h k0)).2.1 from rfl]
      exact del_go_h_none src k0 rest (fpop d k0) (spop h k0) (sget_spop_self h k0)
    · have hin2 : k ∈ rest := by
        rcases List.mem_cons.mp hin with h1 | h1
        · exact absurd h1.symm hk0
        · exact h1
      by_cases hm : k0 = "_meta"
      · subst hm; rw [del_step_meta]; exact ih d h hin2
      · cases hs : sget src k0 with
        | some w =>
          rw [del_step_keep src k0 rest d h hm (by simp [hs])]
          exact ih d h hin2
        | none =>
          rw [del_step_pop src k0 rest d h hm hs]
          rw [show ((del_go src rest (fpop d k0) (spop h k0)).1,
              (del_go src rest (fpop d k0) (spop h k0)).2.1, true).2.1 =
              (del_go src rest (fpop d k0) (spop h k0)).2.1 from rfl]
          exact ih (fpop d k0) (spop h k0) hin2

/-- Deleting a scanned key absent from the source raises the change flag. -/
theorem del_go_flag (src : List (String × String)) (k : String)
    (hmk : k ≠ "_meta") (hsk : sget src k = none) :
    ∀ (ks : List String) (d : JFields) (h : List (String × String)), k ∈ ks →
      (del_go src ks d h).2.2 = true := by
  intro ks
  induction ks with
  | nil => intro d h hin; cases hin
  | cons k0 rest ih =>
    intro d h hin
    by_cases hk0 : k0 = k
    · subst hk0; rw [del_step_pop src k0 rest d h hmk hsk]
    · have hin2 : k ∈ rest := by
        rcases List.mem_cons.mp hin with h1 | h1
        · exact absurd h1.symm hk0
        · exact h1
      by_cases hm : k0 = "_meta"
      · subst hm; rw [del_step_meta]; exact ih d h hin2
      · cases hs : sget src k0 with
        | some w =>
          rw [del_step_keep src k0 rest d h hm (by simp [hs])]
          exact ih d h hin2
        | none => rw [del_step_pop src k0 rest d h hm hs]

theorem strEntries_strFields (l : List (String × String)) : strEntries (strFields l) = l := by
  induction l with
  | nil => rfl
  | cons p rest ih => obtain ⟨k, v⟩ := p; simp [strFields, strEntries, ih]

/-- If a JSON object equals (as a Python dict) a flat string dict `h`, then
a key absent from `h` is absent from the object's string entries. -/
theorem eqStrDictF_none (K : String) :
    ∀ (m : JFields) (h : List (String × String)), eqStrDictF m h = true → sget h K = none →
      sget (strEntries m) K = none := by
  intro m
  induction m using jfields_induction with
  | hnil => intro h _ _; rfl
  | hcons k0 v0 rest ih =>
    intro h heq hn
    have heq2 : (strEntryMatches h v0 k0 && eqStrDictF rest h) = true := heq
    have hparts : strEntryMatches h v0 k0 = true ∧ eqStrDictF rest h = true := by
      simp only [Bool.and_eq_true] at heq2; exact heq2
    cases v0 with
    | str s0 =>
      have hk0 : sget h k0 = some s0 := by simpa [strEntryMatches] using hparts.1
      have hne : k0 ≠ K := by
        intro he; subst he; rw [hn] at hk0; cases hk0
      rw [show strEntries (JFields.cons k0 (.str s0) rest) =
          (k0, s0) :: strEntries rest from rfl]
      rw [show sget ((k0, s0) :: strEntries rest) K = sget (strEntries rest) K from by
        simp [sget, hne]]
      exact ih h hparts.2 hn
    | other r => simp [strEntryMatches] at hparts
    | obj m2 => simp [strEntryMatches] at hparts

theorem sync_pres (src : List (String × String)) (d : JFields) (k : String)
    (hk : (sget src k).isSome) (hmk : k ≠ "_meta") :
    fget (sync_deletions src d).1 k = fget d k := by
  unfold sync_deletions
  cases hm : fget d "_meta" with
  | none =>
    dsimp only
    exact del_go_pres src k hk (fkeys d) d []
  | some jv =>
    cases jv with
    | str s => dsimp only; exact del_go_pres src k hk (fkeys d) d []
    | other r => dsimp only; exact del_go_pres src k hk (fkeys d) d []
    | obj m =>
      dsimp only
      split
      · exact del_go_pres src k hk (fkeys d) d (get_source_hashes m)
      · rw [fget_fset_ne _ "_meta" k _ (Ne.symm hmk)]
        exact del_go_pres src k hk (fkeys d) d (get_source_hashes m)

theorem sync_removes_doc (src : List (String × String)) (d : JFields) (k : String)
    (hmem : k ∈ fkeys d) (hmk : k ≠ "_meta") (hsk : sget src k = none) :
    fget (sync_deletions src d).1 k = none := by
  unfold sync_deletions
  cases hm : fget d "_meta" with
  | none =>
    dsimp only
    exact del_go_doc_removes src k hmk hsk (fkeys d) d [] hmem
  | some jv =>
    cases jv with
    | str s => dsimp only; exact del_go_doc_removes src k hmk hsk (fkeys d) d [] hmem
    | other r => dsimp only; exact del_go_doc_removes src k hmk hsk (fkeys d) d [] hmem
    | obj m =>
      dsimp only
      split
      · exact del_go_doc_removes src k hmk hsk (fkeys d) d (get_source_hashes m) hmem
      · rw [fget_fset_ne _ "_meta" k _ (Ne.symm hmk)]
        exact del_go_doc_removes src k hmk hsk (fkeys d) d (get_source_hashes m) hmem

theorem sync_flag (src : List (String × String)) (d : JFields) (k : String)
    (hmem : k ∈ fkeys d) (hmk : k ≠ "_meta") (hsk : sget src k = none) :
    (sync_deletions src d).2 = true := by
  unfold sync_deletions
  cases hm : fget d "_meta" with
  | none =>
    dsimp only
    exact del_go_flag src k hmk hsk (fkeys d) d [] hmem
  | some jv =>
    cases jv with
    | str s => dsimp only; exact del_go_flag src k hmk hsk (fkeys d) d [] hmem
    | other r => dsimp only; exact del_go_flag src k hmk hsk (fkeys d) d [] hmem
    | obj m =>
      dsimp only
      split
      · exact del_go_flag src k hmk hsk (fkeys d) d (get_source_hashes m) hmem
      · rfl

theorem sync_hashes_none (src : List (String × String)) (d : JFields) (k : String)
    (hmem : k ∈ fkeys d) (hmk : k ≠ "_meta") (hsk : sget src k = none) :
    sget (doc_hashes (sync_deletions src d).1) k = none := by
  unfold sync_deletions
  cases hm : fget d "_meta" with
  | none =>
    dsimp only
    rw [show doc_hashes (del_go src (fkeys d) d []).1 =
        get_source_hashes (metaOf (del_go src (fkeys d) d []).1) from rfl]
    rw [show metaOf (del_go src (fkeys d) d []).1 = JFields.nil from by
      unfold metaOf; rw [del_go_meta src (fkeys d) d [], hm]]
    rfl
  | some jv =>
    cases jv with
    | str s =>
      dsimp only
      rw [show doc_hashes (del_go src (fkeys d) d []).1 =
          get_source_hashes (metaOf (del_go src (fkeys d) d []).1) from rfl]
      rw [show metaOf (del_go src (fkeys d) d []).1 = JFields.nil from by
        unfold metaOf; rw [del_go_meta src (fkeys d) d [], hm]]
      rfl
    | other r =>
      dsimp only
      rw [show doc_hashes (del_go src (fkeys d) d []).1 =
          get_source_hashes (metaOf (del_go src (fkeys d) d []).1) from rfl]
      rw [show metaOf (del_go src (fkeys d) d []).1 = JFields.nil from by
        unfold metaOf; rw [del_go_meta src (fkeys d) d [], hm]]
      rfl
    | obj m =>
      dsimp only
      have hh : sget (del_go src (fkeys d) d (get_source_hashes m)).2.1 k = none :=
        del_go_h_removes src k hmk hsk (fkeys d) d (get_source_hashes m) hmem
      split
      · next heq =>
        rw [show doc_hashes (del_go src (fkeys d) d (get_source_hashes m)).1 =
            get_source_hashes (metaOf (del_go src (fkeys d) d (get_source_hashes m)).1)
            from rfl]
        rw [show metaOf (del_go src (fkeys d) d (get_source_hashes m)).1 = m from by
          unfold metaOf; rw [del_go_meta src (fkeys d) d (get_source_hashes m), hm]]
        cases hsh : fget m "source_hashes" with
        | none =>
          rw [hsh] at heq
          exact Bool.noConfusion (show false = true from heq)
        | some jv2 =>
          rw [hsh] at heq
          cases jv2 with
          | str s2 =>
            exact absurd (show eqStrDict (JVal.str s2)
              (del_go src (fkeys d) d (get_source_hashes m)).2.1 = true from heq)
              (by simp [eqStrDict])
          | other r2 =>
            exact absurd (show eqStrDict (JVal.other r2)
              (del_go src (fkeys d) d (get_source_hashes m)).2.1 = true from heq)
              (by simp [eqStrDict])
          | obj msh =>
            have heq3 : (eqStrDictF msh (del_go src (fkeys d) d (get_source_hashes m)).2.1 &&
                ((del_go src (fkeys d) d (get_source_hashes m)).2.1.all
                  (fun q => (fget msh q.1).isSome))) = true := heq
            have hF : eqStrDictF msh (del_go src (fkeys d) d (get_source_hashes m)).2.1 =
                true := by
              simp only [Bool.and_eq_true] at heq3; exact heq3.1
            rw [show get_source_hashes m = strEntries msh from by
              unfold get_source_hashes; rw [hsh]]
            exact eqStrDictF_none k msh _ hF hh
      · rw [show doc_hashes (fset (del_go src (fkeys d) d (get_source_hashes m)).1 "_meta"
            (.obj (fset m "source_hashes"
              (.obj (strFields (del_go src (fkeys d) d (get_source_hashes m)).2.1))))) =
            get_source_hashes (fset m "source_hashes"
              (.obj (strFields (del_go src (fkeys d) d (get_source_hashes m)).2.1)))
            from by unfold doc_hashes metaOf; rw [fget_fset_self]]
        rw [show get_source_hashes (fset m "source_hashes"
            (.obj (strFields (del_go src (fkeys d) d (get_source_hashes m)).2.1))) =
            strEntries (strFields (del_go src (fkeys d) d (get_source_hashes m)).2.1)
            from by unfold get_source_hashes; rw [fget_fset_self]]
        rw [strEntries_strFields]
        exact hh

/-! Translation-executor lemmas. -/

/-- A successful retry loop returns some attempt's response with the
glossary post-filter applied to every value. -/
theorem try_attempts_some (svc : Nat → Option (List (String × String))) :
    ∀ (fuel i : Nat) (r : List (String × String)), try_attempts svc i fuel = some r →
      ∃ j raw, svc j = some raw ∧ r = raw.map (fun p => (p.1, apply_glossary p.2)) := by
  intro fuel
  induction fuel with
  | zero => intro i r h; cases h
  | succ n ih =>
    intro i r h
    cases hc : svc i with
    | some raw =>
      rw [show try_attempts svc i (n + 1) =
          some (raw.map (fun p => (p.1, apply_glossary p.2))) from by
        simp [try_attempts, call_openai_translate, hc]] at h
      exact ⟨i, raw, hc, (Option.some.inj h).symm⟩
    | none =>
      rw [show try_attempts svc i (n + 1) = try_attempts svc (i + 1) n from by
        simp [try_attempts, call_openai_translate, hc]] at h
      exact ih (i + 1) r h

/-- A successful batch is empty (no call made) or is some attempt's
response after the glossary post-filter. -/
theorem translate_batch_ok (svc : Nat → Option (List (String × String))) (dl : String)
    (items tr : List (String × String)) (h : translate_batch svc dl items = .ok tr) :
    tr = [] ∨ ∃ j raw, svc j = some raw ∧
      tr = raw.map (fun p => (p.1, apply_glossary p.2)) := by
  unfold translate_batch at h
  by_cases he : items.isEmpty
  · rw [if_pos he] at h
    exact Or.inl (Except.ok.inj h).symm
  · rw [if_neg he] at h
    cases ht : try_attempts svc 0 3 with
    | some r =>
      rw [ht] at h
      obtain rfl := Except.ok.inj h
      exact Or.inr (try_attempts_some svc 3 0 r ht)
    | none => rw [ht] at h; cases h

/-- Exhausting the three attempts raises the batch failure. -/
theorem translate_batch_fails (svc : Nat → Option (List (String × String))) (dl : String)
    (items : List (String × String)) (hne : items ≠ [])
    (h0 : svc 0 = none) (h1 : svc 1 = none) (h2 : svc 2 = none) :
    translate_batch svc dl items = .error ("translate failed for " ++ dl) := by
  unfold translate_batch
  rw [if_neg (by simpa [List.isEmpty_iff] using hne)]
  rw [show try_attempts svc 0 3 = none from by
    simp [try_attempts, call_openai_translate, h0, h1, h2]]

/-- A first-attempt success returns that response, glossary-filtered. -/
theorem translate_batch_first (svc : Nat → Option (List (String × String))) (dl : String)
    (items raw : List (String × String)) (hne : items ≠ []) (h0 : svc 0 = some raw) :
    translate_batch svc dl items = .ok (raw.map (fun p => (p.1, apply_glossary p.2))) := by
  unfold translate_batch
  rw [if_neg (by simpa [List.isEmpty_iff] using hne)]
  rw [show try_attempts svc 0 3 = some (raw.map (fun p => (p.1, apply_glossary p.2))) from by
    simp [try_attempts, call_openai_translate, h0]]

/-! Merge, metadata-upsert and seed-updates lemmas. -/

theorem merge_pres (k : String) :
    ∀ (tr : List (String × String)) (d : JFields), k ∉ tr.map Prod.fst →
      fget (merge_translated tr d) k = fget d k := by
  intro tr
  induction tr with
  | nil => intro d _; rfl
  | cons p rest ih =>
    intro d hk
    obtain ⟨k0, v0⟩ := p
    have hk0 : k0 ≠ k := fun he => hk (by simp [he])
    have hrest : k ∉ rest.map Prod.fst := fun h => hk (by simp [h])
    rw [show merge_translated ((k0, v0) :: rest) d =
        merge_translated rest (fset d k0 (.str v0)) from rfl]
    rw [ih _ hrest, fget_fset_ne d k0 k _ hk0]

theorem merge_sets (k w : String) :
    ∀ (tr : List (String × String)) (d : JFields), (tr.map Prod.fst).Nodup →
      sget tr k = some w → fget (merge_translated tr d) k = some (.str w) := by
  intro tr
  induction tr with
  | nil => intro d _ hk; simp [sget] at hk
  | cons p rest ih =>
    intro d hnd hk
    obtain ⟨k0, v0⟩ := p
    have hnd0 : k0 ∉ rest.map Prod.fst ∧ (rest.map Prod.fst).Nodup := by
      simpa [List.nodup_cons] using hnd
    rw [show merge_translated ((k0, v0) :: rest) d =
        merge_translated rest (fset d k0 (.str v0)) from rfl]
    by_cases hkk : k0 = k
    · subst hkk
      have hv : v0 = w := by simpa [sget] using hk
      subst hv
      rw [merge_pres k0 rest _ hnd0.1]
      exact fget_fset_self d k0 _
    · have hk2 : sget rest k = some w := by simpa [sget, hkk] using hk
      exact ih _ hnd0.2 hk2

/-- The metadata upsert touches only the `_meta` entry of the document. -/
theorem upsert_fget_ne (hash : String → String) (now sl dl : String) (d : JFields)
    (u : List (String × String)) (k : String) (hk : k ≠ "_meta") :
    fget (upsert_meta_hashes hash now sl dl d u) k = fget d k := by
  unfold upsert_meta_hashes
  exact fget_fset_ne d "_meta" k _ (Ne.symm hk)

theorem strEntries_fset_ne (K k0 : String) (w : JVal) (hne : k0 ≠ K) :
    ∀ sh : JFields, sget (strEntries (fset sh k0 w)) K = sget (strEntries sh) K := by
  intro sh
  induction sh using jfields_induction with
  | hnil =>
    cases w with
    | str s => simp [fset, strEntries, sget, hne]
    | other r => simp [fset, strEntries, sget]
    | obj m => simp [fset, strEntries, sget]
  | hcons k1 v1 rest ih =>
    by_cases h01 : k1 = k0
    · rw [show fset (JFields.cons k1 v1 rest) k0 w = JFields.cons k0 w rest from by
        simp [fset, h01]]
      cases w with
      | str s =>
        cases v1 with
        | str s1 => simp [strEntries, sget, hne, h01 ▸ hne]
        | other r1 => simp [strEntries, sget, hne]
        | obj m1 => simp [strEntries, sget, hne]
      | other r =>
        cases v1 with
        | str s1 => simp [strEntries, sget, h01 ▸ hne]
        | other r1 => simp [strEntries]
        | obj m1 => simp [strEntries]
      | obj m =>
        cases v1 with
        | str s1 => simp [strEntries, sget, h01 ▸ hne]
        | other r1 => simp [strEntries]
        | obj m1 => simp [strEntries]
    · rw [show fset (JFields.cons k1 v1 rest) k0 w = JFields.cons k1 v1 (fset rest k0 w)
        from by simp [fset, h01]]
      cases v1 with
      | str s1 =>
        by_cases h1K : k1 = K
        · simp [strEntries, sget, h1K]
        · simp [strEntries, sget, h1K, ih]
      | other r1 => simpa [strEntries] using ih
      | obj m1 => simpa [strEntries] using ih

/-- Hash writes for other keys do not disturb a key's string entry. -/
theorem upsert_sh_pres (hash : String → String) (K : String) :
    ∀ (u : List (String × String)) (sh : JFields), K ∉ u.map Prod.fst →
      sget (strEntries (upsert_sh_go hash sh u)) K = sget (strEntries sh) K := by
  intro u
  induction u with
  | nil => intro sh _; rfl
  | cons p rest ih =>
    intro sh hK
    obtain ⟨k0, t0⟩ := p
    have hk0 : k0 ≠ K := fun he => hK (by simp [he])
    have hrest : K ∉ rest.map Prod.fst := fun h => hK (by simp [h])
    rw [show upsert_sh_go hash sh ((k0, t0) :: rest) =
        upsert_sh_go hash (fset sh k0 (.str (hash t0))) rest from rfl]
    rw [ih (fset sh k0 (.str (hash t0))) hrest]
    exact strEntries_fset_ne K k0 _ hk0 sh

/-- The fingerprint table after the metadata upsert is the hash-written
version of a start table that is the document's previous table or empty. -/
theorem upsert_doc_hashes (hash : String → String) (now sl dl : String) (d : JFields)
    (u : List (String × String)) :
    ∃ sh : JFields,
      doc_hashes (upsert_meta_hashes hash now sl dl d u) =
        strEntries (upsert_sh_go hash sh u) ∧
      (strEntries sh = doc_hashes d ∨ strEntries sh = []) := by
  unfold upsert_meta_hashes
  cases hm : fget d "_meta" with
  | some jv =>
    cases jv with
    | obj m0 =>
      dsimp only
      cases hsh : fget m0 "source_hashes" with
      | some jv2 =>
        cases jv2 with
        | obj msh =>
          dsimp only
          refine ⟨msh, ?_, Or.inl ?_⟩
          · rw [show fget m0 "source_hashes" = some (.obj msh) from hsh]
            unfold doc_hashes metaOf
            rw [fget_fset_self]
            unfold get_source_hashes
            rw [fget_fset_ne _ "updated_at_utc" "source_hashes" _ (by decide)]
            rw [fget_fset_ne _ "target_lang" "source_hashes" _ (by decide)]
            rw [fget_fset_ne _ "source_lang" "source_hashes" _ (by decide)]
            rw [fget_fset_ne _ "generated_by" "source_hashes" _ (by decide)]
            rw [fget_fset_self]
          · unfold doc_hashes metaOf
            rw [hm]
            unfold get_source_hashes
            rw [hsh]
        | str s2 =>
          dsimp only
          refine ⟨.nil, ?_, Or.inr rfl⟩
          rw [show fget (fset m0 "source_hashes" (.obj .nil)) "source_hashes" =
            some (.obj .nil) from fget_fset_self m0 "source_hashes" _]
          unfold doc_hashes metaOf
          rw [fget_fset_self]
          unfold get_source_hashes
          rw [fget_fset_ne _ "updated_at_utc" "source_hashes" _ (by decide)]
          rw [fget_fset_ne _ "target_lang" "source_hashes" _ (by decide)]
          rw [fget_fset_ne _ "source_lang" "source_hashes" _ (by decide)]
          rw [fget_fset_ne _ "generated_by" "source_hashes" _ (by decide)]
          rw [fget_fset_self]
        | other r2 =>
          dsimp only
          refine ⟨.nil, ?_, Or.inr rfl⟩
          rw [show fget (fset m0 "source_hashes" (.obj .nil)) "source_hashes" =
            some (.obj .nil) from fget_fset_self m0 "source_hashes" _]
          unfold doc_hashes metaOf
          rw [fget_fset_self]
          unfold get_source_hashes
          rw [fget_fset_ne _ "updated_at_utc" "source_hashes" _ (by decide)]
          rw [fget_fset_ne _ "target_lang" "source_hashes" _ (by decide)]
          rw [fget_fset_ne _ "source_lang" "source_hashes" _ (by decide)]
          rw [fget_fset_ne _ "generated_by" "source_hashes" _ (by decide)]
          rw [fget_fset_self]
      | none =>
        dsimp only
        refine ⟨.nil, ?_, Or.inr rfl⟩
        rw [show fget (fset m0 "source_hashes" (.obj .nil)) "source_hashes" =
          some (.obj .nil) from fget_fset_self m0 "source_hashes" _]
        unfold doc_hashes metaOf
        rw [fget_fset_self]
        unfold get_source_hashes
        rw [fget_fset_ne _ "updated_at_utc" "source_hashes" _ (by decide)]
        rw [fget_fset_ne _ "target_lang" "source_hashes" _ (by decide)]
        rw [fget_fset_ne _ "source_lang" "source_hashes" _ (by decide)]
        rw [fget_fset_ne _ "generated_by" "source_hashes" _ (by decide)]
        rw [fget_fset_self]
    | str s =>
      dsimp only
      refine ⟨.nil, ?_, Or.inr rfl⟩
      simp only [show fget JFields.nil "source_hashes" = none from rfl]
      rw [show fget (fset JFields.nil "source_hashes" (.obj .nil)) "source_hashes" =
        some (.obj .nil) from fget_fset_self JFields.nil "source_hashes" _]
      unfold doc_hashes metaOf
      rw [fget_fset_self]
      unfold get_source_hashes
      rw [fget_fset_ne _ "updated_at_utc" "source_hashes" _ (by decide)]
      rw [fget_fset_ne _ "target_lang" "source_hashes" _ (by decide)]
      rw [fget_fset_ne _ "source_lang" "source_hashes" _ (by decide)]
      rw [fget_fset_ne _ "generated_by" "source_hashes" _ (by decide)]
      rw [fget_fset_self]
    | other r =>
      dsimp only
      refine ⟨.nil, ?_, Or.inr rfl⟩
      simp only [show fget JFields.nil "source_hashes" = none from rfl]
      rw [show fget (fset JFields.nil "source_hashes" (.obj .nil)) "source_hashes" =
        some (.obj .nil) from fget_fset_self JFields.nil "source_hashes" _]
      unfold doc_hashes metaOf
      rw [fget_fset_self]
      unfold get_source_hashes
      rw [fget_fset_ne _ "updated_at_utc" "source_hashes" _ (by decide)]
      rw [fget_fset_ne _ "target_lang" "source_hashes" _ (by decide)]
      rw [fget_fset_ne _ "source_lang" "source_hashes" _ (by decide)]
      rw [fget_fset_ne _ "generated_by" "source_hashes" _ (by decide)]
      rw [fget_fset_self]
  | none =>
    dsimp only
    refine ⟨.nil, ?_, Or.inr rfl⟩
    simp only [show fget JFields.nil "source_hashes" = none from rfl]
    rw [show fget (fset JFields.nil "source_hashes" (.obj .nil)) "source_hashes" =
      some (.obj .nil) from fget_fset_self JFields.nil "source_hashes" _]
    unfold doc_hashes metaOf
    rw [fget_fset_self]
    unfold get_source_hashes
    rw [fget_fset_ne _ "updated_at_utc" "source_hashes" _ (by decide)]
    rw [fget_fset_ne _ "target_lang" "source_hashes" _ (by decide)]
    rw [fget_fset_ne _ "source_lang" "source_hashes" _ (by decide)]
    rw [fget_fset_ne _ "generated_by" "source_hashes" _ (by decide)]
    rw [fget_fset_self]

theorem seed_from_keys_none (K : String) (src_ft : List (String × String)) :
    ∀ (ks : List String) (acc : List (String × String)), K ∉ ks → sget acc K = none →
      sget (seed_from_keys src_ft ks acc) K = none := by
  intro ks
  induction ks with
  | nil => intro acc _ hacc; exact hacc
  | cons k0 rest ih =>
    intro acc hK hacc
    have hk0 : k0 ≠ K := fun he => hK (by simp [he])
    have hrest : K ∉ rest := fun h => hK (by simp [h])
    cases hs : sget src_ft k0 with
    | some v =>
      rw [show seed_from_keys src_ft (k0 :: rest) acc =
          (match sget src_ft k0 with
           | some v => seed_from_keys src_ft rest (sset acc k0 v)
           | none => seed_from_keys src_ft rest acc) from rfl, hs]
      exact ih _ hrest (by rw [sget_sset_ne acc k0 K v hk0]; exact hacc)
    | none =>
      rw [show seed_from_keys src_ft (k0 :: rest) acc =
          (match sget src_ft k0 with
           | some v => seed_from_keys src_ft rest (sset acc k0 v)
           | none => seed_from_keys src_ft rest acc) from rfl, hs]
      exact ih acc hrest hacc

theorem seed_from_pairs_none (K : String) :
    ∀ (pairs acc : List (String × String)), K ∉ pairs.map Prod.fst → sget acc K = none →
      sget (seed_from_pairs pairs acc) K = none := by
  intro pairs
  induction pairs with
  | nil => intro acc _ hacc; exact hacc
  | cons p rest ih =>
    intro acc hK hacc
    obtain ⟨k0, v0⟩ := p
    have hk0 : k0 ≠ K := fun he => hK (by simp [he])
    have hrest : K ∉ rest.map Prod.fst := fun h => hK (by simp [h])
    rw [show seed_from_pairs ((k0, v0) :: rest) acc =
        seed_from_pairs rest (sset acc k0 v0) from rfl]
    exact ih _ hrest (by rw [sget_sset_ne acc k0 K v0 hk0]; exact hacc)

theorem seed_force_none (K : String) :
    ∀ (a acc : List (String × String)),
      (∀ v, (K, v) ∈ a → is_force_copy_item K (.str v) = false) →
      sget acc K = none → sget (seed_force a acc) K = none := by
  intro a
  induction a with
  | nil => intro acc _ hacc; exact hacc
  | cons p rest ih =>
    intro acc hnf hacc
    obtain ⟨k0, v0⟩ := p
    have hnfr : ∀ v, (K, v) ∈ rest → is_force_copy_item K (.str v) = false :=
      fun v hv => hnf v (List.mem_cons_of_mem _ hv)
    by_cases hfc : is_force_copy_item k0 (.str v0)
    · have hk0 : k0 ≠ K := by
        intro he; subst he
        rw [hnf v0 (List.mem_cons_self _ _)] at hfc
        cases hfc
      rw [show seed_force ((k0, v0) :: rest) acc =
          seed_force rest (sset acc k0 v0) from by simp [seed_force, hfc]]
      exact ih _ hnfr (by rw [sget_sset_ne acc k0 K v0 hk0]; exact hacc)
    · rw [show seed_force ((k0, v0) :: rest) acc = seed_force rest acc from by
        simp [seed_force, hfc]]
      exact ih acc hnfr hacc

/-! Whole-pass lemmas. -/

/-- Characterization of a successful pass: the batch succeeded, and the
final document is the merged document, metadata-upserted iff the seed
updates are nonempty; the write flag is the disjunction of the force,
deletion, translation and metadata-change flags. -/
theorem process_ok_cases (hash : String → String) (svc : Nat → Option (List (String × String)))
    (now sl dl : String) (srcFull : JFields) (authCore : List (String × String))
    (dst0 : JFields) (dw : JFields × Bool)
    (hok : process_target_file hash svc now sl dl srcFull authCore dst0 = .ok dw) :
    ∃ tr : List (String × String),
      translate_batch svc dl (pass_needs hash authCore srcFull dst0).1 = .ok tr ∧
      (((pass_seed_updates hash authCore srcFull dst0).isEmpty = true ∧
          dw = (merge_translated tr (pass_pre authCore srcFull dst0),
            (apply_force_copy authCore dst0).2 ||
            (sync_deletions (coreOf srcFull) (apply_force_copy authCore dst0).1).2 ||
            !(pass_needs hash authCore srcFull dst0).1.isEmpty)) ∨
        ((pass_seed_updates hash authCore srcFull dst0).isEmpty = false ∧
          ∃ mc : Bool,
            dw = (upsert_meta_hashes hash now sl dl
                (merge_translated tr (pass_pre authCore srcFull dst0))
                (pass_seed_updates hash authCore srcFull dst0),
              (apply_force_copy authCore dst0).2 ||
              (sync_deletions (coreOf srcFull) (apply_force_copy authCore dst0).1).2 ||
              !(pass_needs hash authCore srcFull dst0).1.isEmpty || mc))) := by
  simp only [process_target_file] at hok
  cases htb : translate_batch svc dl (pass_needs hash authCore srcFull dst0).1 with
  | error e =>
    rw [htb] at hok
    exact absurd hok (by simp)
  | ok tr =>
    rw [htb] at hok
    refine ⟨tr, rfl, ?_⟩
    cases hse : (pass_seed_updates hash authCore srcFull dst0).isEmpty with
    | true =>
      rw [hse] at hok
      simp only [if_true] at hok
      exact Or.inl ⟨rfl, (Except.ok.inj hok).symm⟩
    | false =>
      rw [hse] at hok
      simp only [Bool.false_eq_true, if_false] at hok
      refine Or.inr ⟨rfl, ?_⟩
      exact ⟨_, (Except.ok.inj hok).symm⟩

/-- C3: when a destination's translation batch fails after exhausting the
fixed retry bound, the synchronization pass raises an error and performs no
write: the on-disk destination document after the failed pass is exactly
what it was before the pass. -/
theorem C3_failed_batch_is_atomic (hash : String → String)
    (svc : Nat → Option (List (String × String))) (now sl dl : String)
    (srcFull : JFields) (authCore : List (String × String)) (dst0 : JFields)
    (hplan : (pass_needs hash authCore srcFull dst0).1 ≠ [])
    (h0 : svc 0 = none) (h1 : svc 1 = none) (h2 : svc 2 = none) :
    process_target_file hash svc now sl dl srcFull authCore dst0 =
      .error ("translate failed for " ++ dl) ∧
    pass_disk hash svc now sl dl srcFull authCore dst0 = dst0 := by
  have htb := translate_batch_fails svc dl (pass_needs hash authCore srcFull dst0).1 hplan h0 h1 h2
  have hproc : process_target_file hash svc now sl dl srcFull authCore dst0 =
      .error ("translate failed for " ++ dl) := by
    simp only [process_target_file]
    rw [htb]
  refine ⟨hproc, ?_⟩
  unfold pass_disk
  rw [hproc]

theorem map_fst_map_apply {α β : Type} (g : α → β) (l : List (String × α)) :
    (l.map (fun p => (p.1, g p.2))).map Prod.fst = l.map Prod.fst := by
  induction l with
  | nil => rfl
  | cons p rest ih => simp [ih]

theorem sget_filter_none {α : Type} (f : String × α → Bool) (K : String) :
    ∀ l : List (String × α), sget l K = none → sget (l.filter f) K = none := by
  intro l
  induction l with
  | nil => intro h; exact h
  | cons p rest ih =>
    intro h
    have hp : ¬(p.1 = K) := by
      intro he
      rw [show sget (p :: rest) K = some p.2 from by simp [sget, he]] at h
      cases h
    have h2 : sget rest K = none := by simpa [sget, hp] using h
    cases hf : f p with
    | true =>
      rw [List.filter_cons_of_pos hf]
      rw [show sget (p :: rest.filter f) K = sget (rest.filter f) K from by simp [sget, hp]]
      exact ih h2
    | false =>
      rw [List.filter_cons_of_neg (by simp [hf])]
      exact ih h2

theorem filter_force_sget_none (a : List (String × String)) (K : String)
    (l : List (String × String)) (h : sget l K = none) :
    sget (filter_force a l) K = none := by
  unfold filter_force
  exact sget_filter_none _ K l h

/-- C8: every value returned by the translation service has the glossary
post-filter applied before it is merged into the destination document: when
the service's (first-attempt) response holds `rawVal` at key `k`, the
document a successful pass produces holds exactly
`apply_glossary rawVal` at `k`, whatever the service returned. -/
theorem C8_glossary_before_merge (hash : String → String)
    (svc : Nat → Option (List (String × String))) (now sl dl : String)
    (srcFull : JFields) (authCore : List (String × String)) (dst0 : JFields)
    (raw : List (String × String)) (k rawVal : String) (dw : JFields × Bool)
    (hplan : (pass_needs hash authCore srcFull dst0).1 ≠ [])
    (h0 : svc 0 = some raw)
    (hk : sget raw k = some rawVal)
    (hnd : (raw.map Prod.fst).Nodup)
    (hkm : k ≠ "_meta")
    (hok : process_target_file hash svc now sl dl srcFull authCore dst0 = .ok dw) :
    fget dw.1 k = some (.str (apply_glossary rawVal)) := by
  have htb := translate_batch_first svc dl (pass_needs hash authCore srcFull dst0).1 raw hplan h0
  obtain ⟨tr, htb2, hcase⟩ := process_ok_cases hash svc now sl dl srcFull authCore dst0 dw hok
  rw [htb] at htb2
  obtain rfl := Except.ok.inj htb2
  have hmap_nd : ((raw.map (fun p => (p.1, apply_glossary p.2))).map Prod.fst).Nodup := by
    rw [map_fst_map_apply]; exact hnd
  have hmget : sget (raw.map (fun p => (p.1, apply_glossary p.2))) k =
      some (apply_glossary rawVal) := by
    rw [sget_map_snd, hk]; rfl
  have hmerge : fget (merge_translated (raw.map (fun p => (p.1, apply_glossary p.2)))
      (pass_pre authCore srcFull dst0)) k = some (.str (apply_glossary rawVal)) :=
    merge_sets k _ _ _ hmap_nd hmget
  rcases hcase with ⟨-, hdw⟩ | ⟨-, mc, hdw⟩
  · rw [hdw]; exact hmerge
  · rw [hdw]
    show fget (upsert_meta_hashes hash now sl dl _ _) k = _
    rw [upsert_fget_ne hash now sl dl _ _ k hkm]
    exact hmerge

/-- C5 (amended): after every successful pass, every force-copied entry
`(k, v)` of the (duplicate-free) authoritative core whose key also belongs
to the track's own source document ends with destination value exactly `v`,
regardless of any translated content previously present; the original claim
fails for force-copied keys absent from the track's source, which the
deletion synchronizer removes right after the force-copy step (see the
counterexample). -/
theorem C5_amended_force_copy (hash : String → String)
    (svc : Nat → Option (List (String × String))) (now sl dl : String)
    (srcFull : JFields) (authCore : List (String × String)) (dst0 : JFields)
    (k v : String) (dw : JFields × Bool)
    (hnd : (authCore.map Prod.fst).Nodup)
    (hk : sget authCore k = some v)
    (hfc : is_force_copy_item k (.str v) = true)
    (hsrc : (sget (coreOf srcFull) k).isSome)
    (hkm : k ≠ "_meta")
    (hsvc : ∀ i r, svc i = some r → sget r k = none)
    (hok : process_target_file hash svc now sl dl srcFull authCore dst0 = .ok dw) :
    fget (pass_disk hash svc now sl dl srcFull authCore dst0) k = some (.str v) := by
  obtain ⟨tr, htb, hcase⟩ := process_ok_cases hash svc now sl dl srcFull authCore dst0 dw hok
  have htrk : k ∉ tr.map Prod.fst := by
    rcases translate_batch_ok svc dl _ tr htb with rfl | ⟨j, raw, hj, rfl⟩
    · simp
    · rw [map_fst_map_apply, ← sget_none_iff]
      exact hsvc j raw hj
  have hpre : fget (pass_pre authCore srcFull dst0) k = some (.str v) := by
    unfold pass_pre
    rw [sync_pres (coreOf srcFull) _ k hsrc hkm]
    exact afc_sets k v authCore dst0 hnd hk hfc
  have hdoc : fget dw.1 k = some (.str v) := by
    rcases hcase with ⟨-, hdw⟩ | ⟨-, mc, hdw⟩
    · rw [hdw]
      show fget (merge_translated tr (pass_pre authCore srcFull dst0)) k = _
      rw [merge_pres k tr _ htrk]
      exact hpre
    · rw [hdw]
      show fget (upsert_meta_hashes hash now sl dl _ _) k = _
      rw [upsert_fget_ne hash now sl dl _ _ k hkm]
      rw [merge_pres k tr _ htrk]
      exact hpre
  unfold pass_disk
  rw [hok]
  dsimp only
  cases hw : dw.2 with
  | true => simpa using hdoc
  | false =>
    simp only [Bool.false_eq_true, if_false]
    have hfl : (apply_force_copy authCore dst0).2 = false := by
      rcases hcase with ⟨-, hdw⟩ | ⟨-, mc, hdw⟩
      · have h2 : ((apply_force_copy authCore dst0).2 ||
            (sync_deletions (coreOf srcFull) (apply_force_copy authCore dst0).1).2 ||
            !(pass_needs hash authCore srcFull dst0).1.isEmpty) = false := by
          rw [hdw] at hw; exact hw
        simp only [Bool.or_eq_false_iff] at h2
        exact h2.1.1
      · have h2 : ((apply_force_copy authCore dst0).2 ||
            (sync_deletions (coreOf srcFull) (apply_force_copy authCore dst0).1).2 ||
            !(pass_needs hash authCore srcFull dst0).1.isEmpty || mc) = false := by
          rw [hdw] at hw; exact hw
        simp only [Bool.or_eq_false_iff] at h2
        exact h2.1.1.1
    exact afc_false_val k v authCore dst0 hfl hk hfc

/-- C6 (amended): if key `K` (other than the metadata key) is absent from
the track's source document and was present in the destination before the
pass, then after a successful pass `K` is absent from the destination
document and, provided `K` is not classified force-copied from the global
authoritative core and the service returns only requested keys, `K` is also
absent from the fingerprint table.  The original claim fails for
force-copied keys: their fingerprint is unconditionally re-seeded even
though the key is deleted from the document (see the counterexample). -/
theorem C6_amended_deletion (hash : String → String)
    (svc : Nat → Option (List (String × String))) (now sl dl : String)
    (srcFull : JFields) (authCore : List (String × String)) (dst0 : JFields)
    (K : String) (dw : JFields × Bool)
    (hKsrc : sget (coreOf srcFull) K = none)
    (hKm : K ≠ "_meta")
    (hKdst : (fget dst0 K).isSome)
    (hnf : ∀ v, (K, v) ∈ authCore → is_force_copy_item K (.str v) = false)
    (hsvcK : ∀ i r, svc i = some r → sget r K = none)
    (hsvcM : ∀ i r, svc i = some r → sget r "_meta" = none)
    (hok : process_target_file hash svc now sl dl srcFull authCore dst0 = .ok dw) :
    dw.2 = true ∧
    fget (pass_disk hash svc now sl dl srcFull authCore dst0) K = none ∧
    sget (doc_hashes (pass_disk hash svc now sl dl srcFull authCore dst0)) K = none := by
  obtain ⟨tr, htb, hcase⟩ := process_ok_cases hash svc now sl dl srcFull authCore dst0 dw hok
  have htrK : K ∉ tr.map Prod.fst := by
    rcases translate_batch_ok svc dl _ tr htb with rfl | ⟨j, raw, hj, rfl⟩
    · simp
    · rw [map_fst_map_apply, ← sget_none_iff]
      exact hsvcK j raw hj
  have htrM : "_meta" ∉ tr.map Prod.fst := by
    rcases translate_batch_ok svc dl _ tr htb with rfl | ⟨j, raw, hj, rfl⟩
    · simp
    · rw [map_fst_map_apply, ← sget_none_iff]
      exact hsvcM j raw hj
  have hmem : K ∈ fkeys (apply_force_copy authCore dst0).1 :=
    (fget_isSome_iff_mem_fkeys _ K).mp (afc_keeps_some K authCore dst0 hKdst)
  have hd1 : fget (pass_pre authCore srcFull dst0) K = none := by
    unfold pass_pre
    exact sync_removes_doc (coreOf srcFull) _ K hmem hKm hKsrc
  have hh1 : sget (doc_hashes (pass_pre authCore srcFull dst0)) K = none := by
    unfold pass_pre
    exact sync_hashes_none (coreOf srcFull) _ K hmem hKm hKsrc
  have hflag : (sync_deletions (coreOf srcFull) (apply_force_copy authCore dst0).1).2 = true :=
    sync_flag (coreOf srcFull) _ K hmem hKm hKsrc
  have hdT : fget (merge_translated tr (pass_pre authCore srcFull dst0)) K = none := by
    rw [merge_pres K tr _ htrK]
    exact hd1
  have hhT : sget (doc_hashes (merge_translated tr (pass_pre authCore srcFull dst0))) K =
      none := by
    unfold doc_hashes metaOf
    rw [merge_pres "_meta" tr _ htrM]
    have h2 := hh1
    unfold doc_hashes metaOf at h2
    exact h2
  have hKft : K ∉ (filter_force authCore (coreOf srcFull)).map Prod.fst := by
    rw [← sget_none_iff]
    exact filter_force_sget_none authCore K (coreOf srcFull) hKsrc
  have hplanK1 : sget (pass_needs hash authCore srcFull dst0).1 K = none := by
    unfold pass_needs pass_plan build_plan
    exact (build_plan_go_not_mem hash _ _ K _ hKft).1
  have hplanK2 : K ∉ (pass_needs hash authCore srcFull dst0).2 := by
    unfold pass_needs pass_plan build_plan
    exact (build_plan_go_not_mem hash _ _ K _ hKft).2
  have hseedK : sget (pass_seed_updates hash authCore srcFull dst0) K = none := by
    unfold pass_seed_updates
    refine seed_force_none K authCore _ hnf ?_
    refine seed_from_pairs_none K _ _ ((sget_none_iff _ K).mp hplanK1) ?_
    exact seed_from_keys_none K _ _ _ hplanK2 rfl
  have hseedKm : K ∉ (pass_seed_updates hash authCore srcFull dst0).map Prod.fst :=
    (sget_none_iff _ K).mp hseedK
  have hflag2 : dw.2 = true := by
    rcases hcase with ⟨-, hdw⟩ | ⟨-, mc, hdw⟩ <;> rw [hdw] <;> simp [hflag]
  have hdocK : fget dw.1 K = none := by
    rcases hcase with ⟨-, hdw⟩ | ⟨-, mc, hdw⟩
    · rw [hdw]; exact hdT
    · rw [hdw]
      show fget (upsert_meta_hashes hash now sl dl _ _) K = none
      rw [upsert_fget_ne hash now sl dl _ _ K hKm]
      exact hdT
  have hhashK : sget (doc_hashes dw.1) K = none := by
    rcases hcase with ⟨-, hdw⟩ | ⟨-, mc, hdw⟩
    · rw [hdw]; exact hhT
    · rw [hdw]
      dsimp only
      obtain ⟨sh, heq, hor⟩ := upsert_doc_hashes hash now sl dl
        (merge_translated tr (pass_pre authCore srcFull dst0))
        (pass_seed_updates hash authCore srcFull dst0)
      rw [heq, upsert_sh_pres hash K _ sh hseedKm]
      rcases hor with h | h
      · rw [h]; exact hhT
      · rw [h]; rfl
  have hdisk : pass_disk hash svc now sl dl srcFull authCore dst0 = dw.1 := by
    unfold pass_disk
    rw [hok]
    dsimp only
    rw [hflag2]
    rfl
  exact ⟨hflag2, by rw [hdisk]; exact hdocK, by rw [hdisk]; exact hhashK⟩

/-! Orchestrator behaviour on a failing destination. -/

/-- C4 (amended): the orchestrator has no per-destination error handling: a
raised batch failure propagates out of the loop and aborts the run, leaving
the failing destination's and every remaining destination's on-disk
document untouched (earlier destinations keep their already-written
results).  The original claim of per-destination failure isolation fails
(see the counterexample). -/
theorem C4_amended_failure_aborts (hash : String → String) (now : String)
    (authCore : List (String × String)) (t : Target) (d : JFields)
    (rest : List (Target × JFields)) (e : String)
    (h : process_target_file hash t.svc now t.src_lang t.dst_lang t.srcFull authCore d =
      .error e) :
    run_targets hash now authCore ((t, d) :: rest) =
      (d :: rest.map (fun p => p.2), some e) := by
  unfold run_targets
  rw [h]

def w4T : Target := ⟨"en", "fr", .cons "greeting" (.str "Hello") .nil, fun _ => none⟩

theorem C4_amended_failure_aborts_witness :
    run_targets (fun s => s) "2025-01-01T00:00:00Z" [] [(w4T, JFields.nil)] =
      ([JFields.nil], some "translate failed for fr") :=
  C4_amended_failure_aborts (fun s => s) "2025-01-01T00:00:00Z" [] w4T JFields.nil []
    "translate failed for fr" rfl

def c4Src : JFields := .cons "greeting" (.str "Hello") .nil

def c4T1 : Target := ⟨"en", "fr", c4Src, fun _ => none⟩

def c4T2 : Target := ⟨"en", "de", c4Src, fun _ => some [("greeting", "Hallo")]⟩

/-- C4 counterexample: with two destinations whose first pass raises (its
service fails every attempt), the run stops with that error and the second
destination's document stays in its prior (empty) state, although
processing the second destination alone would have written a changed
document — the orchestrator does not continue with remaining destinations. -/
theorem C4_counterexample_no_isolation :
    run_targets (fun s => s) "2025-01-01T00:00:00Z" [] [(c4T1, .nil), (c4T2, .nil)] =
      ([JFields.nil, JFields.nil], some "translate failed for fr") ∧
    decide (pass_disk (fun s => s) c4T2.svc "2025-01-01T00:00:00Z" "en" "de" c4Src []
      JFields.nil = JFields.nil) = false := by
  exact ⟨rfl, rfl⟩

/-! Concrete runs for the force-copy, deletion and idempotence claims. -/

def c5Hash : String → String := fun s => String.append "#" s

def c5Auth : List (String × String) := [("privacy_date", "2024-03-01")]

def c5Doc : JFields :=
  match process_target_file c5Hash (fun _ => none) "2025-01-01T00:00:00Z" "zh" "zh-Hant"
      JFields.nil c5Auth JFields.nil with
  | .ok r => r.1
  | .error _ => .nil

/-- C5 counterexample: on the zh track, the key `privacy_date` is
force-copied from the global (en) authoritative core but absent from the
track's own source document, so the deletion synchronizer removes it right
after the force-copy step: after a successful pass the destination does not
hold the authoritative value at that force-copied key at all. -/
theorem C5_counterexample_deleted_force_key :
    process_target_file c5Hash (fun _ => none) "2025-01-01T00:00:00Z" "zh" "zh-Hant"
        JFields.nil c5Auth JFields.nil = .ok (c5Doc, true) ∧
    sget c5Auth "privacy_date" = some "2024-03-01" ∧
    is_force_copy_item "privacy_date" (.str "2024-03-01") = true ∧
    fget c5Doc "privacy_date" = none := by
  exact ⟨rfl, rfl, by decide, rfl⟩

def c6Hash : String → String := fun s => String.append "#" s

def c6Dst0 : JFields :=
  .cons "privacy_date" (.str "old translation")
    (.cons "_meta" (.obj (.cons "source_hashes"
      (.obj (.cons "privacy_date" (.str "stale") .nil)) .nil)) .nil)

def c6Doc : JFields :=
  match process_target_file c6Hash (fun _ => none) "2025-01-01T00:00:00Z" "zh" "zh-Hant"
      JFields.nil [("privacy_date", "2024-03-01")] c6Dst0 with
  | .ok r => r.1
  | .error _ => .nil

/-- C6 counterexample: `privacy_date` is absent from the zh track's source
and is removed from the destination document by the pass, but because it is
force-copied from the global authoritative core its fingerprint is
unconditionally re-seeded into `_meta.source_hashes` — the key is absent
from the document yet present in the fingerprint table, contradicting the
claim. -/
theorem C6_counterexample_force_key_hash_reseeded :
    process_target_file c6Hash (fun _ => none) "2025-01-01T00:00:00Z" "zh" "zh-Hant"
        JFields.nil [("privacy_date", "2024-03-01")] c6Dst0 = .ok (c6Doc, true) ∧
    sget (coreOf JFields.nil) "privacy_date" = none ∧
    fget c6Doc "privacy_date" = none ∧
    sget (doc_hashes c6Doc) "privacy_date" = some "#2024-03-01" := by
  exact ⟨rfl, rfl, rfl, rfl⟩

def c1Hash : String → String := fun s => String.append "#" s

def c1Auth : List (String × String) := [("privacy_date", "2024-03-01")]

def c1Src : JFields := .cons "privacy_date" (.str "2024-03-01") .nil

def c1Doc1 : JFields :=
  match process_target_file c1Hash (fun _ => none) "2025-01-01T00:00:00Z" "en" "fr" c1Src
      c1Auth JFields.nil with
  | .ok r => r.1
  | .error _ => .nil

def c1Doc2 : JFields :=
  match process_target_file c1Hash (fun _ => none) "2025-01-01T00:00:01Z" "en" "fr" c1Src
      c1Auth c1Doc1 with
  | .ok r => r.1
  | .error _ => .nil

/-- C1 (code bug): with one force-copied key and an unchanged authoritative
input, a second pass run one second after a successful first pass still
writes.  Every pass puts all force-copied keys into `seed_updates` (source
lines 359–361), so `upsert_meta_hashes` always runs and refreshes
`_meta.updated_at_utc`; the serialized metadata then differs from the
on-disk one and the pass saves a document that differs from the first
pass's output exactly in that timestamp — violating I5/P1, whose intent the
script's own `[skip] … no changes` branch and before/after metadata
comparison implement.  Only when the clock string is unchanged (last
conjunct) does the second pass skip its write. -/
theorem C1_second_pass_writes :
    process_target_file c1Hash (fun _ => none) "2025-01-01T00:00:00Z" "en" "fr" c1Src
        c1Auth JFields.nil = .ok (c1Doc1, true) ∧
    process_target_file c1Hash (fun _ => none) "2025-01-01T00:00:01Z" "en" "fr" c1Src
        c1Auth c1Doc1 = .ok (c1Doc2, true) ∧
    decide (c1Doc2 = c1Doc1) = false ∧
    fget (metaOf c1Doc2) "updated_at_utc" = some (.str "2025-01-01T00:00:01Z") ∧
    fget (metaOf c1Doc1) "updated_at_utc" = some (.str "2025-01-01T00:00:00Z") ∧
    process_target_file c1Hash (fun _ => none) "2025-01-01T00:00:00Z" "en" "fr" c1Src
        c1Auth c1Doc1 = .ok (c1Doc1, false) := by
  exact ⟨rfl, rfl, rfl, rfl, rfl, rfl⟩

/-! Witnesses: each hypothesis-bearing claim theorem applied at a concrete
input. -/

theorem C2_plan_queues_iff_witness :
    (sget (build_plan (fun s => s) [("greeting", "Hello")] JFields.nil JFields.nil).1
      "greeting").isSome = true :=
  (C2_plan_queues_iff (fun s => s) [("greeting", "Hello")] JFields.nil JFields.nil
      "greeting" "Hello" (by decide) rfl).1.mpr (Or.inl rfl)

theorem C3_failed_batch_is_atomic_witness :
    pass_disk (fun s => s) (fun _ => none) "2025-01-01T00:00:00Z" "en" "fr"
      (.cons "greeting" (.str "Hello") .nil) [] JFields.nil = JFields.nil :=
  (C3_failed_batch_is_atomic (fun s => s) (fun _ => none) "2025-01-01T00:00:00Z" "en" "fr"
      (.cons "greeting" (.str "Hello") .nil) [] JFields.nil
      (by decide) rfl rfl rfl).2

theorem C9_plan_wellformed_witness :
    (∀ k, ¬((sget (build_plan (fun s => s) [("greeting", "Hello")] JFields.nil
            JFields.nil).1 k).isSome ∧
          k ∈ (build_plan (fun s => s) [("greeting", "Hello")] JFields.nil JFields.nil).2)) ∧
    (∀ k, (sget (build_plan (fun s => s) [("greeting", "Hello")] JFields.nil
          JFields.nil).1 k).isSome →
        k ∈ ([("greeting", "Hello")] : List (String × String)).map Prod.fst) ∧
    (∀ k, k ∈ (build_plan (fun s => s) [("greeting", "Hello")] JFields.nil JFields.nil).2 →
        k ∈ ([("greeting", "Hello")] : List (String × String)).map Prod.fst) ∧
    (∀ k w, sget (build_plan (fun s => s) [("greeting", "Hello")] JFields.nil
          JFields.nil).1 k = some w →
        sget [("greeting", "Hello")] k = some w) :=
  C9_plan_wellformed (fun s => s) [("greeting", "Hello")] JFields.nil JFields.nil (by decide)

def w5Src : JFields := .cons "privacy_date" (.str "2024-03-01") .nil

def w5Doc : JFields :=
  match process_target_file (fun s => s) (fun _ => none) "2025-01-01T00:00:00Z" "en" "fr"
      w5Src [("privacy_date", "2024-03-01")] JFields.nil with
  | .ok r => r.1
  | .error _ => .nil

theorem C5_amended_force_copy_witness :
    fget (pass_disk (fun s => s) (fun _ => none) "2025-01-01T00:00:00Z" "en" "fr" w5Src
      [("privacy_date", "2024-03-01")] JFields.nil) "privacy_date" =
      some (.str "2024-03-01") :=
  C5_amended_force_copy (fun s => s) (fun _ => none) "2025-01-01T00:00:00Z" "en" "fr"
    w5Src [("privacy_date", "2024-03-01")] JFields.nil "privacy_date" "2024-03-01"
    (w5Doc, true) (by decide) rfl (by decide) (by decide) (by decide)
    (fun _ _ h => Option.noConfusion h) rfl

def w6Dst0 : JFields :=
  .cons "greeting" (.str "Bonjour")
    (.cons "_meta" (.obj (.cons "source_hashes"
      (.obj (.cons "greeting" (.str "h1") .nil)) .nil)) .nil)

def w6Doc : JFields :=
  match process_target_file (fun s => s) (fun _ => none) "2025-01-01T00:00:00Z" "zh"
      "zh-Hant" JFields.nil [] w6Dst0 with
  | .ok r => r.1
  | .error _ => .nil

theorem C6_amended_deletion_witness :
    ((w6Doc, true) : JFields × Bool).2 = true ∧
    fget (pass_disk (fun s => s) (fun _ => none) "2025-01-01T00:00:00Z" "zh" "zh-Hant"
      JFields.nil [] w6Dst0) "greeting" = none ∧
    sget (doc_hashes (pass_disk (fun s => s) (fun _ => none) "2025-01-01T00:00:00Z" "zh"
      "zh-Hant" JFields.nil [] w6Dst0)) "greeting" = none :=
  C6_amended_deletion (fun s => s) (fun _ => none) "2025-01-01T00:00:00Z" "zh" "zh-Hant"
    JFields.nil [] w6Dst0 "greeting" (w6Doc, true) rfl (by decide) (by decide)
    (fun v hv => absurd hv (List.not_mem_nil _))
    (fun _ _ h => Option.noConfusion h) (fun _ _ h => Option.noConfusion h) rfl

def w8Svc : Nat → Option (List (String × String)) := fun _ => some [("greeting", "Hallo")]

def w8Src : JFields := .cons "greeting" (.str "Hello") .nil

def w8Doc : JFields :=
  match process_target_file (fun s => s) w8Svc "2025-01-01T00:00:00Z" "en" "fr" w8Src []
      JFields.nil with
  | .ok r => r.1
  | .error _ => .nil

theorem C8_glossary_before_merge_witness :
    fget w8Doc "greeting" = some (.str (apply_glossary "Hallo")) :=
  C8_glossary_before_merge (fun s => s) w8Svc "2025-01-01T00:00:00Z" "en" "fr" w8Src []
    JFields.nil [("greeting", "Hallo")] "greeting" "Hallo" (w8Doc, true) (by decide) rfl
    rfl (by decide) (by decide) rfl
